import Mathlib

/-!
# Software timers on a delta list (softtimer.c)

A shallow embedding of the delta list of `softtimer.c` and of the functions that
work on it: `findTimerPrev`, `delTimer`, `appendTimer`, `popTimer`,
`sig_alarm_internal` and `Alarm`.

* The singly linked list `struct list` is a `List Timer`, head first.
* A record handed to `appendTimer` or `Alarm` comes with the list of the records that its
  `next` field leads to at that moment: the field is read back where the code stores the
  record without writing it.
* `unsigned int` is a `Nat` with every addition and subtraction reduced modulo `2^32`.
* A handler (`Func *`) is a `Nat` naming a valid function; the sentinel `(Func *)-1`
  of `popTimer` is `none`.
* The calls `alarm(n)`, `kill(getpid(), SIGALRM)` and `funcWrapper(SIGALRM, f)` are
  recorded, in program order, as a list of `Event`s.
-/

namespace SoftTimer

/-- Number of values of an `unsigned int`. -/
def UINT : Nat := 4294967296

/-- Addition of two `unsigned int`: `a + b` in C. -/
def uadd (a b : Nat) : Nat := (a + b) % UINT

/-- Subtraction of two `unsigned int`: `a - b` in C. -/
def usub (a b : Nat) : Nat := (a % UINT + (UINT - b % UINT)) % UINT

/-- The record `struct __timer` without its link field: `sec` is the delta to the previous
record, `intersec` the period, `id` the identity and `sigactor` the handler. -/
structure Timer where
  sec : Nat
  intersec : Nat
  id : Int
  sigactor : Nat
deriving DecidableEq

/-- The record built by `mallocTimer(id, actor, sec, interval)`. -/
def mallocTimer (id : Int) (actor : Nat) (sec interval : Nat) : Timer :=
  { sec := sec, intersec := interval, id := id, sigactor := actor }

/-- What the code does to the outside world. -/
inductive Event where
  | alarm (sec : Nat)
  | kill
  | call (f : Nat)
deriving DecidableEq

/-- Result of `findTimerPrev`: `null` is `NULL`, `header` is `(Timer)-1`, and `node i` is the
pointer to the record at position `i` of the list (the predecessor of the match). -/
inductive Prev where
  | null
  | header
  | node (i : Nat)
deriving DecidableEq

/-- The `while` loop of `findTimerPrev`: `l` is the list from `t` on, `prev` the position of
`prev` (`none` for `NULL`) and `i` the position of `t`. -/
def findTimerPrevLoop (id : Int) : List Timer → Option Nat → Nat → Prev
  | [], _, _ => Prev.null
  | t :: rest, prev, i =>
    if t.id = id then
      match prev with
      | none => Prev.header
      | some p => Prev.node p
    else findTimerPrevLoop id rest (some i) (i + 1)

/-- `findTimerPrev(h, id)`. -/
def findTimerPrev (h : List Timer) (id : Int) : Prev :=
  findTimerPrevLoop id h none 0

/-- The loop `while(tmp){ tmp->sec += base; tmp = tmp->next; }` of `delTimer`. -/
def addBase (base : Nat) : List Timer → List Timer
  | [] => []
  | tmp :: rest => { tmp with sec := uadd tmp.sec base } :: addBase base rest

/-- `delTimer(h, t)`: the list afterwards and the events raised. Only the id of `t` is used. -/
def delTimer (h : List Timer) (t : Timer) : List Timer × List Event :=
  match findTimerPrev h t.id with
  | Prev.null => (h, [])
  | Prev.header =>
    match h with
    | [] => (h, [])
    | hd :: tl =>
      if hd.sec ≠ 0 then (addBase hd.sec tl, [])
      else (h, [Event.kill])
  | Prev.node i =>
    match h.drop (i + 1) with
    | [] => (h, [])
    | todel :: rest => (h.take (i + 1) ++ addBase todel.sec rest, [])

/-- State of the `while` loop of `appendTimer` when it is left: `before` holds the records up
to and including `prev` (empty when `prev == NULL`), `tmp` the list from `tmp` on (empty when
`tmp == NULL`). -/
structure Walk where
  before : List Timer
  tmp : List Timer
  prevbase : Nat
  base : Nat
deriving DecidableEq

/-- The `while` loop of `appendTimer` for a record with `t->sec = tsec`. -/
def walk (tsec : Nat) : List Timer → List Timer → Nat → Nat → Walk
  | before, [], prevbase, base => ⟨before, [], prevbase, base⟩
  | before, tmp :: rest, _, base =>
    if tsec < uadd base tmp.sec then ⟨before, tmp :: rest, base, uadd base tmp.sec⟩
    else walk tsec (before ++ [tmp]) rest base (uadd base tmp.sec)

/-- The end of `appendTimer` for `prev != NULL`: `t->sec` is reduced by `base` or `prevbase`,
`t` is linked between `prev` and `tmp`, and `tmp->sec` is reduced by the new `t->sec`. -/
def linkAfterPrev (t : Timer) (w : Walk) : List Timer :=
  match w.tmp with
  | [] => w.before ++ [{ t with sec := usub t.sec w.base }]
  | tmp :: rest =>
    w.before ++ { t with sec := usub t.sec w.prevbase }
      :: { tmp with sec := usub tmp.sec (usub t.sec w.prevbase) } :: rest

/-- The body of `appendTimer` after its call of `delTimer`. `next` holds the records that
`t->next` leads to when the call is made: `[]` when the field is `NULL`, and for a record that
was linked before the records it was left pointing at, with the fields they have now
(`mallocTimer` does not write the field and unlinking a record does not clear it). In the
branch for an empty list the code stores `t` without writing `t->next`, so the list is `t`
followed by `next`; the two other branches write `t->next`. -/
def insertTimer (h : List Timer) (t : Timer) (next : List Timer) : List Timer :=
  match h with
  | [] => t :: next
  | hd :: tl =>
    let w := walk t.sec [] (hd :: tl) 0 0
    match w.before with
    | [] => t :: { hd with sec := usub hd.sec t.sec } :: tl
    | _ :: _ => linkAfterPrev t w

/-- `appendTimer(h, t)` called with SIGALRM blocked (as in `Alarm`): a `kill` of `delTimer` is
recorded and stays pending. `next` is as in `insertTimer`. -/
def appendTimer (h : List Timer) (t : Timer) (next : List Timer) : List Timer × List Event :=
  (insertTimer (delTimer h t).1 t next, (delTimer h t).2)

/-- `popTimer(h)`: the handler returned (`none` for `(Func *)-1`), the list and the events.
`onKill` is what a `kill` raised inside `delTimer` runs before `kill` returns; the outer
`Option` is `none` when `onKill` gives no result. When the list is empty after `delTimer`,
`appendTimer` stores `todel` without writing `todel->next`, which still points at the old second
record. The records of the old tail are as they were at that point: either the tail was one
record that `delTimer` unlinked, or the run inside `kill` popped records of period 0 only (a
record with a period is put back and stays), and such a pop writes no record. So the records
that `todel->next` leads to are the old tail. -/
def popTimerWith (onKill : List Timer → Option (List Timer × List Event)) :
    List Timer → Option (Option Nat × List Timer × List Event)
  | [] => some (none, [], [])
  | hd :: tl =>
    if hd.intersec > 0 then
      let todel : Timer := { hd with sec := hd.intersec }
      let d := delTimer tl todel
      let r := if d.2 = [] then some (d.1, []) else onKill d.1
      match r with
      | none => none
      | some (l, ev) =>
        some (some hd.sigactor, insertTimer l todel tl, d.2 ++ ev)
    else some (some hd.sigactor, tl, [])

/-- `popTimer(h)` with SIGALRM blocked: a `kill` is recorded and stays pending. -/
def popTimer (h : List Timer) : Option (Option Nat × List Timer × List Event) :=
  popTimerWith (fun l => some (l, [])) h

/-- `sig_alarm_internal`, the handler of SIGALRM, run on the list `h`. The handler is installed
with `SA_NODEFER` and an empty mask, so a `kill(getpid(), SIGALRM)` inside it runs the handler
again before `kill` returns; the first argument bounds the depth of that nesting. -/
def sig_alarm_internal : Nat → List Timer → Option (List Timer × List Event)
  | 0, _ => none
  | _ + 1, [] => some ([], [])
  | fuel + 1, hd :: tl =>
    match popTimerWith (sig_alarm_internal fuel) (hd :: tl) with
    | none => none
    | some (none, l, ev) => some (l, ev)
    | some (some recv, [], ev) => some ([], ev ++ [Event.call recv])
    | some (some recv, nxt :: rest, ev) =>
      if nxt.sec > 0 then
        some (nxt :: rest, ev ++ [Event.alarm nxt.sec, Event.call recv])
      else
        match sig_alarm_internal fuel (nxt :: rest) with
        | none => none
        | some (l, ev2) => some (l, ev ++ Event.kill :: ev2 ++ [Event.call recv])

/-- The loop of `Alarm` that adds up `res`, entered with `t` at the head of the list. -/
def elapsedLoop (id : Int) : List Timer → Nat → Nat
  | [], res => res
  | t :: rest, res =>
    if t.id = id then uadd res t.sec
    else elapsedLoop id rest (uadd res t.sec)

/-- What `Alarm` leaves: the list, the events and the value returned. -/
structure AlarmResult where
  list : List Timer
  events : List Event
  res : Nat
deriving DecidableEq

/-- `Alarm(h, mtimer)` from the blocking of SIGALRM to the restoring of the mask. A `kill`
among the events is pending until the mask is restored. On the arming path the code reads
`(h->head)->__inner.id`; the list is never empty there. `next` holds the records that
`mtimer->next` leads to when the call is made, as in `insertTimer`. -/
def Alarm (h : List Timer) (mtimer : Timer) (next : List Timer) : AlarmResult :=
  let res :=
    match findTimerPrev h mtimer.id with
    | Prev.null => 0
    | _ => elapsedLoop mtimer.id h 0
  if mtimer.sec = 0 then
    ⟨(delTimer h mtimer).1, (delTimer h mtimer).2, res⟩
  else
    let a := appendTimer h mtimer next
    match a.1 with
    | [] => ⟨a.1, a.2, res⟩
    | hd :: _ =>
      if mtimer.id = hd.id then
        ⟨a.1, a.2 ++ [if hd.sec > 0 then Event.alarm hd.sec else Event.kill], res⟩
      else ⟨a.1, a.2, res⟩

/-! ## Vocabulary of the specification -/

/-- Sum of the `sec` fields of a list. -/
def sumSec : List Timer → Nat
  | [] => 0
  | t :: rest => t.sec + sumSec rest

/-- The list with every `sec` replaced by the absolute due time of its record: `base` plus the
sum of the `sec` fields from the head through that record. -/
def dueFrom (base : Nat) : List Timer → List Timer
  | [] => []
  | t :: rest => { t with sec := base + t.sec } :: dueFrom (base + t.sec) rest

/-- Absolute due times of a list: the running sums of `sec`. -/
def dueTimes (l : List Timer) : List Timer := dueFrom 0 l

/-- The ids of a list, head first. -/
def ids (l : List Timer) : List Int := l.map Timer.id

/-- Insertion by remaining delay: `t` goes before the first record that is due strictly later
than `d` ticks after the record before it, with delta `d`, and that record gives up `d`. -/
def insRel (t : Timer) : Nat → List Timer → List Timer
  | d, [] => [{ t with sec := d }]
  | d, x :: rest =>
    if d < x.sec then { t with sec := d } :: { x with sec := x.sec - d } :: rest
    else x :: insRel t (d - x.sec) rest

/-- Arming the timers of `ts` one after another, with no expiry in between. Each record comes
with the records that its `next` field leads to when it is handed to `Alarm`. -/
def armAll (h : List Timer) (ts : List (Timer × List Timer)) : List Timer :=
  ts.foldl (fun l t => (Alarm l t.1 t.2).list) h

/-- Records that were not linked before and whose `next` field is `NULL`. -/
def fresh (ts : List Timer) : List (Timer × List Timer) := ts.map (fun t => (t, []))

/-- The handlers called by a list of events, in order. -/
def calls : List Event → List Nat
  | [] => []
  | Event.call f :: rest => f :: calls rest
  | _ :: rest => calls rest

/-- The countdown left by a list of events: the duration of the last `alarm`, if any. -/
def lastAlarm : List Event → Option Nat
  | [] => none
  | Event.alarm s :: rest => (lastAlarm rest).orElse (fun _ => some s)
  | _ :: rest => lastAlarm rest

/-- Successive expiries of the countdown: `n` passes of the handler from tick `now` on, with the
countdown programmed for `wait` ticks. A pass runs at the tick at which the countdown expires;
the handlers it calls are logged with that tick; a pass that programs no countdown is the
last. -/
def expiries (fuel : Nat) : Nat → Nat → Nat → List Timer → Option (List Timer × List (Nat × Nat))
  | 0, _, _, h => some (h, [])
  | n + 1, now, wait, h =>
    match sig_alarm_internal fuel h with
    | none => none
    | some (l, ev) =>
      let log := (calls ev).map (fun f => (now + wait, f))
      match lastAlarm ev with
      | none => some (l, log)
      | some s =>
        match expiries fuel n (now + wait) s l with
        | none => none
        | some (l2, log2) => some (l2, log ++ log2)

/-- The end of `appendTimer` for `prev != NULL` as a recursion over the list from `tmp` on;
`base` is the sum of the deltas passed so far, in `unsigned int`. -/
def insFrom (t : Timer) : Nat → List Timer → List Timer
  | base, [] => [{ t with sec := usub t.sec base }]
  | base, x :: rest =>
    if t.sec < uadd base x.sec then
      { t with sec := usub t.sec base } :: { x with sec := usub x.sec (usub t.sec base) } :: rest
    else x :: insFrom t (uadd base x.sec) rest

/-- Every `sec` and every `intersec` of the list is a value of `unsigned int`. -/
def Typed (l : List Timer) : Prop := ∀ r ∈ l, r.sec < UINT ∧ r.intersec < UINT

/-- The list is empty or its head has a delta above 0. -/
def HeadPos : List Timer → Prop
  | [] => True
  | hd :: _ => 0 < hd.sec

/-- Number of records with delta 0 at the front of the list. -/
def zeros : List Timer → Nat
  | [] => 0
  | x :: rest => if x.sec = 0 then zeros rest + 1 else 0

/-- Whether no addition `tmp->sec += base` of `delTimer(h, t)` wraps. -/
def delNoWrap (h : List Timer) (t : Timer) : Bool :=
  match findTimerPrev h t.id with
  | Prev.null => true
  | Prev.header =>
    match h with
    | [] => true
    | hd :: tl => tl.all (fun r => decide (r.sec + hd.sec < UINT))
  | Prev.node i =>
    match h.drop (i + 1) with
    | [] => true
    | todel :: rest => rest.all (fun r => decide (r.sec + todel.sec < UINT))

/-- The lists reached from the empty list by calls of `Alarm` (with a delay above 0 or with
delay 0) and by completed runs of the handler, when no addition of `delTimer` wraps and every
record handed to `Alarm` has `NULL` in its `next` field. -/
inductive Reach : List Timer → Prop where
  | empty : Reach []
  | alarm (L : List Timer) (t : Timer) : Reach L → t.sec < UINT → t.intersec < UINT →
      delNoWrap L t = true → Reach (Alarm L t []).list
  | fire (L L2 : List Timer) (fuel : Nat) (ev : List Event) : Reach L →
      sig_alarm_internal fuel L = some (L2, ev) → Reach L2

theorem uadd_exact {a b : Nat} (h : a + b < UINT) : uadd a b = a + b := by
  unfold uadd
  exact Nat.mod_eq_of_lt h

theorem usub_exact {a b : Nat} (ha : a < UINT) (hb : b ≤ a) : usub a b = a - b := by
  unfold usub UINT at *
  omega

theorem uadd_uadd (r a b : Nat) : uadd (uadd r a) b = (r + a + b) % UINT := by
  unfold uadd UINT
  omega

/-! ## The search and the removal -/

theorem ids_append (l m : List Timer) : ids (l ++ m) = ids l ++ ids m := by
  simp [ids]

theorem ids_cons (x : Timer) (l : List Timer) : ids (x :: l) = x.id :: ids l := rfl

theorem ids_addBase (b : Nat) (l : List Timer) : ids (addBase b l) = ids l := by
  induction l with
  | nil => rfl
  | cons x l ih => simp [addBase, ids_cons, ih]

theorem length_addBase (b : Nat) (l : List Timer) : (addBase b l).length = l.length := by
  induction l with
  | nil => rfl
  | cons x l ih => simp [addBase, ih]

theorem findTimerPrevLoop_absent (id : Int) (l : List Timer) (prev : Option Nat) (i : Nat)
    (h : id ∉ ids l) : findTimerPrevLoop id l prev i = Prev.null := by
  induction l generalizing prev i with
  | nil => rfl
  | cons x l ih =>
    have hx : ¬ x.id = id := fun e => h (by simp [ids_cons, e])
    have hl : id ∉ ids l := fun e => h (by simp [ids_cons, e])
    simp [findTimerPrevLoop, hx, ih _ _ hl]

theorem findTimerPrevLoop_split (id : Int) (pre post : List Timer) (x : Timer)
    (p i : Nat) (hpre : id ∉ ids pre) (hx : x.id = id) :
    findTimerPrevLoop id (pre ++ x :: post) (some p) i =
      Prev.node (if pre.length = 0 then p else i + pre.length - 1) := by
  induction pre generalizing p i with
  | nil => simp [findTimerPrevLoop, hx]
  | cons a pre ih =>
    have ha : ¬ a.id = id := fun e => hpre (by simp [ids_cons, e])
    have hp : id ∉ ids pre := fun e => hpre (by simp [ids_cons, e])
    show findTimerPrevLoop id (a :: (pre ++ x :: post)) (some p) i = _
    simp only [findTimerPrevLoop, ha, if_false]
    rw [ih i (i + 1) hp]
    congr 1
    have h1 : ¬ (a :: pre).length = 0 := by simp
    rw [if_neg h1]
    simp only [List.length_cons]
    split <;> omega

theorem delTimer_absent (h : List Timer) (t : Timer) (hid : t.id ∉ ids h) :
    delTimer h t = (h, []) := by
  simp [delTimer, findTimerPrev, findTimerPrevLoop_absent _ _ _ _ hid]

theorem delTimer_head (x : Timer) (post : List Timer) (t : Timer) (hx : x.id = t.id) :
    delTimer (x :: post) t =
      if x.sec ≠ 0 then (addBase x.sec post, []) else (x :: post, [Event.kill]) := by
  simp [delTimer, findTimerPrev, findTimerPrevLoop, hx]

theorem delTimer_interior (a : Timer) (pre post : List Timer) (x t : Timer)
    (hpre : t.id ∉ ids (a :: pre)) (hx : x.id = t.id) :
    delTimer (a :: pre ++ x :: post) t = (a :: pre ++ addBase x.sec post, []) := by
  have ha : ¬ a.id = t.id := fun e => hpre (by simp [ids_cons, e])
  have hp : t.id ∉ ids pre := fun e => hpre (by simp [ids_cons, e])
  have hf : findTimerPrev (a :: pre ++ x :: post) t.id = Prev.node pre.length := by
    show findTimerPrevLoop t.id (a :: (pre ++ x :: post)) none 0 = _
    simp only [findTimerPrevLoop, ha, if_false]
    rw [findTimerPrevLoop_split t.id pre post x 0 (0 + 1) hp hx]
    congr 1
    split <;> omega
  have hd : List.drop (pre.length + 1) (a :: pre ++ x :: post) = x :: post := by
    simp
  have ht : List.take (pre.length + 1) (a :: pre ++ x :: post) = a :: pre := by
    simp
  simp only [delTimer, hf, hd, ht]

theorem elapsedLoop_split (id : Int) (pre post : List Timer) (x : Timer) (r : Nat)
    (hpre : id ∉ ids pre) (hx : x.id = id) :
    elapsedLoop id (pre ++ x :: post) r = (r + sumSec pre + x.sec) % UINT := by
  induction pre generalizing r with
  | nil => simp [elapsedLoop, hx, sumSec, uadd]
  | cons a pre ih =>
    have ha : ¬ a.id = id := fun e => hpre (by simp [ids_cons, e])
    have hp : id ∉ ids pre := fun e => hpre (by simp [ids_cons, e])
    show elapsedLoop id (a :: (pre ++ x :: post)) r = _
    simp only [elapsedLoop, ha, if_false, sumSec]
    rw [ih _ hp]
    unfold uadd UINT
    omega

/-! ## The insertion -/

theorem walk_before_length (tsec : Nat) (rest before : List Timer) (pb b : Nat) :
    before.length ≤ (walk tsec before rest pb b).before.length := by
  induction rest generalizing before pb b with
  | nil => simp [walk]
  | cons x rest ih =>
    unfold walk
    split
    · simp
    · have := ih (before ++ [x]) b (uadd b x.sec)
      simp only [List.length_append, List.length_singleton] at this
      omega

theorem linkAfterPrev_walk (t : Timer) (rest before : List Timer) (pb b : Nat)
    (hb : b ≤ t.sec) (hs : b + sumSec rest < UINT) (ht : t.sec < UINT) :
    linkAfterPrev t (walk t.sec before rest pb b) = before ++ insRel t (t.sec - b) rest := by
  induction rest generalizing before pb b with
  | nil => simp [walk, linkAfterPrev, insRel, usub_exact ht hb]
  | cons x rest ih =>
    simp only [sumSec] at hs
    have hadd : uadd b x.sec = b + x.sec := uadd_exact (by omega)
    unfold walk
    rw [hadd]
    by_cases hlt : t.sec < b + x.sec
    · have h1 : t.sec - b < x.sec := by omega
      have h2 : usub t.sec b = t.sec - b := usub_exact ht hb
      have h3 : usub x.sec (t.sec - b) = x.sec - (t.sec - b) :=
        usub_exact (by omega) (by omega)
      simp [hlt, linkAfterPrev, insRel, h1, h2, h3]
    · have h1 : ¬ t.sec - b < x.sec := by omega
      rw [if_neg hlt, ih (before ++ [x]) b (b + x.sec) (by omega) (by omega)]
      simp only [insRel, h1, if_false, List.append_assoc, List.singleton_append]
      rw [Nat.sub_sub]

/-- A list that is not empty makes `appendTimer` write `t->next`: what the field held before
has no effect. -/
theorem insertTimer_next (hd : Timer) (tl : List Timer) (t : Timer) (next : List Timer) :
    insertTimer (hd :: tl) t next = insertTimer (hd :: tl) t [] :=
  rfl

theorem insertTimer_of_link (l : List Timer) (t : Timer) (next : List Timer)
    (h : l ≠ [] ∨ next = []) : insertTimer l t next = insertTimer l t [] := by
  cases l with
  | nil =>
    rcases h with h | h
    · exact absurd rfl h
    · rw [h]
  | cons hd tl => rfl

/-- The list left by `appendTimer` after the removal: `t` in front of what `t->next` leads to
when the list is empty, and the insertion into the list otherwise. -/
theorem insertTimer_eq_ite (l : List Timer) (t : Timer) (next : List Timer) :
    insertTimer l t next = if l = [] then t :: next else insertTimer l t [] := by
  cases l with
  | nil => rfl
  | cons hd tl => rfl

theorem insertTimer_eq_insRel (h : List Timer) (t : Timer)
    (hs : sumSec h < UINT) (ht : t.sec < UINT) :
    insertTimer h t [] = insRel t t.sec h := by
  cases h with
  | nil => rfl
  | cons hd tl =>
    simp only [sumSec] at hs
    have hadd : uadd 0 hd.sec = hd.sec := by
      rw [uadd_exact (by omega)]; omega
    unfold insertTimer
    simp only []
    unfold walk
    rw [hadd]
    by_cases hlt : t.sec < hd.sec
    · have h3 : usub hd.sec t.sec = hd.sec - t.sec := usub_exact (by omega) (by omega)
      simp [hlt, insRel, h3]
    · rw [if_neg hlt]
      have hlen := walk_before_length t.sec tl ([] ++ [hd]) 0 hd.sec
      have hlink := linkAfterPrev_walk t tl ([] ++ [hd]) 0 hd.sec (by omega) (by omega) ht
      split
      · next heq =>
        rw [heq] at hlen
        simp at hlen
      · rw [hlink]
        simp [insRel, hlt]

theorem dueFrom_insRel (t : Timer) (l : List Timer) (base d : Nat) :
    dueFrom base (insRel t d l) =
      (dueFrom base l).takeWhile (fun r => decide (r.sec ≤ base + d))
        ++ { t with sec := base + d }
        :: (dueFrom base l).dropWhile (fun r => decide (r.sec ≤ base + d)) := by
  induction l generalizing base d with
  | nil => simp [insRel, dueFrom]
  | cons x l ih =>
    by_cases hlt : d < x.sec
    · have h1 : ¬ base + x.sec ≤ base + d := by omega
      have h2 : base + d + (x.sec - d) = base + x.sec := by omega
      simp [insRel, hlt, dueFrom, List.takeWhile, List.dropWhile, h1, h2]
    · have h1 : base + x.sec ≤ base + d := by omega
      have h2 : base + x.sec + (d - x.sec) = base + d := by omega
      simp only [insRel, hlt, if_false, dueFrom, List.takeWhile, List.dropWhile, h1,
        decide_True, List.cons_append]
      rw [ih (base + x.sec) (d - x.sec), h2]

/-- Insertion at the due time. When no record of `L` has the id of `t`, the deltas of `L` sum
to less than `2^32`, `t.sec < 2^32`, and `L` is not empty or `t->next` is `NULL`, `appendTimer`
raises no event and, read as absolute due times (running sums of `sec`), the list it leaves is
`L` with `t` put in behind the records due at `t.sec` or earlier and before the first record due
strictly later: every record of `L` keeps its place among the others and its due time, and the
running sum ending at `t` is `t.sec`. -/
theorem appendTimer_inserts_at_due_time (L : List Timer) (t : Timer) (next : List Timer)
    (hid : t.id ∉ ids L) (hsum : sumSec L < UINT) (ht : t.sec < UINT)
    (hnext : L ≠ [] ∨ next = []) :
    (appendTimer L t next).2 = [] ∧
    dueTimes (appendTimer L t next).1 =
      (dueTimes L).takeWhile (fun r => decide (r.sec ≤ t.sec))
        ++ t :: (dueTimes L).dropWhile (fun r => decide (r.sec ≤ t.sec)) := by
  have hd := delTimer_absent L t hid
  refine ⟨by simp [appendTimer, hd], ?_⟩
  simp only [appendTimer, hd, dueTimes]
  rw [insertTimer_of_link L t next hnext, insertTimer_eq_insRel L t hsum ht, dueFrom_insRel]
  simp

theorem appendTimer_inserts_at_due_time_witness :
    dueTimes (appendTimer [mallocTimer 2 12 2 0, mallocTimer 1 11 3 0, mallocTimer 3 13 3 0]
        (mallocTimer 4 14 5 1) [mallocTimer 9 19 1 0]).1 =
      [mallocTimer 2 12 2 0, mallocTimer 1 11 5 0, mallocTimer 4 14 5 1, mallocTimer 3 13 8 0] :=
  (appendTimer_inserts_at_due_time
    [mallocTimer 2 12 2 0, mallocTimer 1 11 3 0, mallocTimer 3 13 3 0] (mallocTimer 4 14 5 1)
    [mallocTimer 9 19 1 0] (by decide) (by decide) (by decide) (Or.inl (by decide))).2.trans
    (by decide)

theorem ids_dueFrom (base : Nat) (l : List Timer) : ids (dueFrom base l) = ids l := by
  induction l generalizing base with
  | nil => rfl
  | cons x l ih => simp [dueFrom, ids_cons, ih]

theorem length_insRel (t : Timer) (l : List Timer) (d : Nat) :
    (insRel t d l).length = l.length + 1 := by
  induction l generalizing d with
  | nil => rfl
  | cons x l ih =>
    unfold insRel
    split
    · rfl
    · simp [ih]

theorem dueTimes_insRel_perm (t : Timer) (l : List Timer) :
    (dueTimes (insRel t t.sec l)).Perm (t :: dueTimes l) := by
  unfold dueTimes
  rw [dueFrom_insRel]
  simp only [Nat.zero_add]
  have h := List.takeWhile_append_dropWhile (fun r => decide (r.sec ≤ t.sec)) (dueFrom 0 l)
  have hp : ((dueFrom 0 l).takeWhile (fun r => decide (r.sec ≤ t.sec))
        ++ t :: (dueFrom 0 l).dropWhile (fun r => decide (r.sec ≤ t.sec))).Perm
      (t :: ((dueFrom 0 l).takeWhile (fun r => decide (r.sec ≤ t.sec))
        ++ (dueFrom 0 l).dropWhile (fun r => decide (r.sec ≤ t.sec)))) := List.perm_middle
  rw [h] at hp
  exact hp

theorem exists_first_with_id (id : Int) (l : List Timer) (h : id ∈ ids l) :
    ∃ pre x post, l = pre ++ x :: post ∧ id ∉ ids pre ∧ x.id = id := by
  induction l with
  | nil => simp [ids] at h
  | cons a l ih =>
    by_cases ha : a.id = id
    · exact ⟨[], a, l, rfl, by simp [ids], ha⟩
    · have hl : id ∈ ids l := by
        simp only [ids_cons, List.mem_cons] at h
        rcases h with h | h
        · exact absurd h.symm ha
        · exact h
      obtain ⟨pre, x, post, he, hp, hx⟩ := ih hl
      refine ⟨a :: pre, x, post, by simp [he], ?_, hx⟩
      simp only [ids_cons, List.mem_cons, not_or]
      exact ⟨fun e => ha e.symm, hp⟩

theorem Alarm_list_of_arm (h : List Timer) (t : Timer) (next : List Timer)
    (hpos : t.sec ≠ 0) :
    (Alarm h t next).list = insertTimer (delTimer h t).1 t next := by
  unfold Alarm
  simp only [hpos, if_false, appendTimer]
  split
  · rfl
  · split <;> rfl

/-- What a removal that finds its record and does not hit a head of delta 0 leaves: the ids
without the one removed, one record fewer, and no event. -/
theorem delTimer_present (L : List Timer) (t : Timer) (hnd : (ids L).Nodup)
    (hin : t.id ∈ ids L) (hhead : ∀ hd tl, L = hd :: tl → hd.id = t.id → 0 < hd.sec) :
    (ids (delTimer L t).1).Nodup ∧ t.id ∉ ids (delTimer L t).1 ∧
      (delTimer L t).1.length + 1 = L.length ∧ (delTimer L t).2 = [] := by
  obtain ⟨pre, x, post, he, hp, hx⟩ := exists_first_with_id t.id L hin
  subst he
  have hnd2 : (ids pre ++ x.id :: ids post).Nodup := by
    simpa [ids_append, ids_cons] using hnd
  have hsub : (ids pre ++ ids post).Nodup :=
    hnd2.sublist (List.Sublist.append (List.Sublist.refl _) (List.sublist_cons_self _ _))
  have hpost : t.id ∉ ids post := by
    have h1 : (x.id :: ids post).Nodup := hnd2.of_append_right
    rw [← hx]
    exact (List.nodup_cons.mp h1).1
  have hnot : t.id ∉ ids pre ++ ids post := by
    simp only [List.mem_append, not_or]
    exact ⟨hp, hpost⟩
  cases pre with
  | nil =>
    have hsec : x.sec ≠ 0 := by
      have := hhead x post rfl hx
      omega
    have hd : delTimer ([] ++ x :: post) t = (addBase x.sec post, []) := by
      rw [List.nil_append, delTimer_head x post t hx, if_pos hsec]
    rw [hd]
    refine ⟨?_, ?_, ?_, rfl⟩
    · rw [ids_addBase]
      simpa [ids] using hsub
    · rw [ids_addBase]
      simpa [ids] using hnot
    · simp [length_addBase]
  | cons a pre =>
    rw [delTimer_interior a pre post x t hp hx]
    refine ⟨?_, ?_, ?_, rfl⟩
    · show (ids ((a :: pre) ++ addBase x.sec post)).Nodup
      rw [ids_append, ids_addBase]
      exact hsub
    · show t.id ∉ ids ((a :: pre) ++ addBase x.sec post)
      rw [ids_append, ids_addBase]
      exact hnot
    · simp only [List.length_append, List.length_cons, length_addBase]
      omega

/-- The list left by an insertion without wrap into a list that lacks the id of `t`. -/
theorem insertTimer_fresh (L : List Timer) (t : Timer) (hnd : (ids L).Nodup)
    (hid : t.id ∉ ids L) (hsum : sumSec L < UINT) (ht : t.sec < UINT) :
    (ids (insertTimer L t [])).Nodup ∧
      (dueTimes (insertTimer L t [])).filter (fun r => decide (r.id = t.id)) = [t] ∧
      (insertTimer L t []).length = L.length + 1 := by
  rw [insertTimer_eq_insRel L t hsum ht]
  have hperm := dueTimes_insRel_perm t L
  refine ⟨?_, ?_, length_insRel t L t.sec⟩
  · have h1 : (ids (dueTimes (insRel t t.sec L))).Perm (ids (t :: dueTimes L)) :=
      hperm.map Timer.id
    simp only [dueTimes, ids_dueFrom, ids_cons] at h1
    rw [h1.nodup_iff]
    exact List.nodup_cons.mpr ⟨hid, hnd⟩
  · unfold dueTimes
    rw [dueFrom_insRel]
    simp only [Nat.zero_add]
    have hall : ∀ r ∈ dueFrom 0 L, ¬ r.id = t.id := by
      intro r hr e
      apply hid
      rw [← ids_dueFrom 0 L, ← e]
      exact List.mem_map_of_mem Timer.id hr
    have h1 : ((dueFrom 0 L).takeWhile (fun r => decide (r.sec ≤ t.sec))).filter
        (fun r => decide (r.id = t.id)) = [] := by
      rw [List.filter_eq_nil_iff]
      intro r hr
      simpa using hall r ((List.takeWhile_sublist _).subset hr)
    have h2 : ((dueFrom 0 L).dropWhile (fun r => decide (r.sec ≤ t.sec))).filter
        (fun r => decide (r.id = t.id)) = [] := by
      rw [List.filter_eq_nil_iff]
      intro r hr
      simpa using hall r ((List.dropWhile_sublist _).subset hr)
    rw [List.filter_append, h1, List.filter_cons, h2]
    simp

theorem dueFrom_ge (base : Nat) (l : List Timer) : ∀ r ∈ dueFrom base l, base ≤ r.sec := by
  induction l generalizing base with
  | nil => simp [dueFrom]
  | cons x l ih =>
    intro r hr
    simp only [dueFrom, List.mem_cons] at hr
    rcases hr with hr | hr
    · subst hr
      simp
    · have := ih (base + x.sec) r hr
      omega

theorem dueFrom_sorted (base : Nat) (l : List Timer) :
    (dueFrom base l).Pairwise (fun a b => a.sec ≤ b.sec) := by
  induction l generalizing base with
  | nil => simp [dueFrom]
  | cons x l ih =>
    simp only [dueFrom, List.pairwise_cons]
    exact ⟨fun r hr => dueFrom_ge (base + x.sec) l r hr, ih (base + x.sec)⟩

theorem sumSec_mem_dueFrom (base : Nat) (l : List Timer) (hl : l ≠ []) :
    ∃ r ∈ dueFrom base l, r.sec = base + sumSec l := by
  induction l generalizing base with
  | nil => exact absurd rfl hl
  | cons x l ih =>
    cases l with
    | nil => exact ⟨{ x with sec := base + x.sec }, by simp [dueFrom], by simp [sumSec]⟩
    | cons y l =>
      obtain ⟨r, hr, hs⟩ := ih (base + x.sec) (by simp)
      refine ⟨r, ?_, ?_⟩
      · rw [dueFrom]
        exact List.mem_cons_of_mem _ hr
      · rw [hs]
        simp only [sumSec]
        omega

theorem armAll_perm (ps : List (Timer × List Timer)) (R done : List Timer)
    (hR : (dueTimes R).Perm done)
    (hnd : (ids (done ++ ps.map Prod.fst)).Nodup)
    (hb : ∀ t ∈ done ++ ps.map Prod.fst, 0 < t.sec ∧ t.sec < UINT)
    (hnext : R ≠ [] ∨ ∀ p, ps.head? = some p → p.2 = []) :
    (dueTimes (armAll R ps)).Perm (done ++ ps.map Prod.fst) := by
  induction ps generalizing R done with
  | nil => simpa [armAll] using hR
  | cons p ps ih =>
    obtain ⟨t, nx⟩ := p
    simp only [List.map_cons] at hnd hb
    have hidsR : (ids R).Perm (ids done) := by
      have h1 : (ids (dueFrom 0 R)).Perm (ids done) := hR.map Timer.id
      rw [ids_dueFrom] at h1
      exact h1
    have hnd2 : (ids done ++ t.id :: ids (ps.map Prod.fst)).Nodup := by
      simpa [ids_append, ids_cons] using hnd
    have hndd : (ids done).Nodup := hnd2.of_append_left
    have htd : t.id ∉ ids done := by
      intro hmem
      exact (List.nodup_append.mp hnd2).2.2 hmem (List.mem_cons_self _ _)
    have hndR : (ids R).Nodup := hidsR.nodup_iff.mpr hndd
    have htR : t.id ∉ ids R := fun hmem => htd (hidsR.subset hmem)
    have ht := hb t (by simp)
    have hsum : sumSec R < UINT := by
      cases hRl : R with
      | nil => simp [sumSec, UINT]
      | cons y R2 =>
        obtain ⟨r, hr, hs⟩ := sumSec_mem_dueFrom 0 R (by simp [hRl])
        have hrd : r ∈ done := hR.subset hr
        have := (hb r (by simp [hrd])).2
        rw [← hRl]
        omega
    have hlink : R ≠ [] ∨ nx = [] := by
      rcases hnext with h | h
      · exact Or.inl h
      · exact Or.inr (h (t, nx) rfl)
    have hlist : (Alarm R t nx).list = insRel t t.sec R := by
      rw [Alarm_list_of_arm R t nx (by omega), delTimer_absent R t htR,
        insertTimer_of_link R t nx hlink, insertTimer_eq_insRel R t hsum ht.2]
    have hstep : (dueTimes (Alarm R t nx).list).Perm (done ++ [t]) := by
      rw [hlist]
      refine (dueTimes_insRel_perm t R).trans ?_
      refine (List.Perm.cons t hR).trans ?_
      exact @List.perm_append_comm Timer [t] done
    have hne : (Alarm R t nx).list ≠ [] := by
      rw [hlist]
      intro h0
      have := length_insRel t R t.sec
      rw [h0] at this
      simp at this
    have hgoal := ih (Alarm R t nx).list (done ++ [t]) hstep
      (by simpa [List.append_assoc] using hnd) (by simpa [List.append_assoc] using hb)
      (Or.inl hne)
    simpa [armAll, List.append_assoc] using hgoal

/-! ## Popping the head -/

theorem popTimerWith_oneshot (k : List Timer → Option (List Timer × List Event))
    (hd : Timer) (tl : List Timer) (hp : hd.intersec = 0) :
    popTimerWith k (hd :: tl) = some (some hd.sigactor, tl, []) := by
  simp [popTimerWith, hp]

theorem popTimerWith_periodic (k : List Timer → Option (List Timer × List Event))
    (hd : Timer) (tl : List Timer) (hp : 0 < hd.intersec) (hid : hd.id ∉ ids tl) :
    popTimerWith k (hd :: tl) =
      some (some hd.sigactor, insertTimer tl { hd with sec := hd.intersec } [], []) := by
  have hdel : delTimer tl { hd with sec := hd.intersec } = (tl, []) :=
    delTimer_absent tl _ hid
  cases tl with
  | nil => simp [popTimerWith, hp, hdel, insertTimer]
  | cons x tl => simp [popTimerWith, hp, hdel, insertTimer_next]

/-! ## The handler -/

/-- A run of the handler whose `popTimer` leaves the empty list. -/
theorem sig_alarm_internal_last (fuel : Nat) (hd : Timer) (tl : List Timer) (recv : Nat)
    (ev : List Event)
    (hpop : popTimerWith (sig_alarm_internal fuel) (hd :: tl) = some (some recv, [], ev)) :
    sig_alarm_internal (fuel + 1) (hd :: tl) = some ([], ev ++ [Event.call recv]) := by
  rw [sig_alarm_internal, hpop]

/-- A run of the handler whose `popTimer` leaves a head with a delta above 0. -/
theorem sig_alarm_internal_rearm (fuel : Nat) (hd nxt : Timer) (tl rest : List Timer)
    (recv : Nat) (ev : List Event)
    (hpop : popTimerWith (sig_alarm_internal fuel) (hd :: tl) = some (some recv, nxt :: rest, ev))
    (hpos : 0 < nxt.sec) :
    sig_alarm_internal (fuel + 1) (hd :: tl)
      = some (nxt :: rest, ev ++ [Event.alarm nxt.sec, Event.call recv]) := by
  rw [sig_alarm_internal, hpop]
  simp [hpos]

/-- A run of the handler whose `popTimer` leaves a head with delta 0: the handler runs again
inside `kill`, and the handler popped first is called last. -/
theorem sig_alarm_internal_nested (fuel : Nat) (hd nxt : Timer) (tl rest : List Timer)
    (recv : Nat) (ev : List Event)
    (hpop : popTimerWith (sig_alarm_internal fuel) (hd :: tl) = some (some recv, nxt :: rest, ev))
    (hzero : nxt.sec = 0) :
    sig_alarm_internal (fuel + 1) (hd :: tl)
      = (sig_alarm_internal fuel (nxt :: rest)).map
          (fun r => (r.1, ev ++ Event.kill :: r.2 ++ [Event.call recv])) := by
  rw [sig_alarm_internal, hpop]
  simp only [hzero, gt_iff_lt, Nat.lt_irrefl, if_false]
  cases sig_alarm_internal fuel (nxt :: rest) with
  | none => rfl
  | some r => rfl

theorem calls_append (a b : List Event) : calls (a ++ b) = calls a ++ calls b := by
  induction a with
  | nil => rfl
  | cons e a ih => cases e <;> simp [calls, ih]

/-! ## Removal and the due times of the records that stay -/

/-- C1, the code on the list 2, 1, 1 (due at 2, 3, 4): removing the head (id 1) leaves the
deltas 3, 3, so the record with id 3 is due at 6 and no longer at 4; and on the list 2, 1, 1, 1
(due at 2, 3, 4, 5) removing the interior record with id 2 leaves the deltas 2, 2, 2, so the
record with id 4 is due at 6 and no longer at 5. The loop of `delTimer` adds the removed delta
to every record behind the removed one, not to the next one only. -/
theorem delTimer_adds_base_to_every_follower :
    delTimer [mallocTimer 1 0 2 0, mallocTimer 2 0 1 0, mallocTimer 3 0 1 0] (mallocTimer 1 0 0 0)
      = ([mallocTimer 2 0 3 0, mallocTimer 3 0 3 0], []) ∧
    dueTimes [mallocTimer 1 0 2 0, mallocTimer 2 0 1 0, mallocTimer 3 0 1 0]
      = [mallocTimer 1 0 2 0, mallocTimer 2 0 3 0, mallocTimer 3 0 4 0] ∧
    dueTimes (delTimer [mallocTimer 1 0 2 0, mallocTimer 2 0 1 0, mallocTimer 3 0 1 0]
        (mallocTimer 1 0 0 0)).1
      = [mallocTimer 2 0 3 0, mallocTimer 3 0 6 0] ∧
    dueTimes [mallocTimer 1 0 2 0, mallocTimer 2 0 1 0, mallocTimer 3 0 1 0, mallocTimer 4 0 1 0]
      = [mallocTimer 1 0 2 0, mallocTimer 2 0 3 0, mallocTimer 3 0 4 0, mallocTimer 4 0 5 0] ∧
    dueTimes (delTimer
        [mallocTimer 1 0 2 0, mallocTimer 2 0 1 0, mallocTimer 3 0 1 0, mallocTimer 4 0 1 0]
        (mallocTimer 2 0 0 0)).1
      = [mallocTimer 1 0 2 0, mallocTimer 3 0 4 0, mallocTimer 4 0 6 0] := by
  decide

/-! ## The value returned by `Alarm` -/

/-- C4, counterexample: on the list with the one record of id 1 and delta 5, no record stands
before the match, so the sum of the deltas strictly before it is 0; `Alarm` returns 5 on the
cancel path and on the re-arm path. -/
theorem Alarm_res_counts_the_match :
    sumSec ([] : List Timer) = 0 ∧
    (Alarm ([] ++ mallocTimer 1 11 5 0 :: []) (mallocTimer 1 11 0 0) []).res = 5 ∧
    (Alarm ([] ++ mallocTimer 1 11 5 0 :: []) (mallocTimer 1 12 7 0) []).res = 5 := by
  decide

/-- C4, amended: when the list holds a record with the id of `mtimer`, the first one being `x`
behind the records `pre`, `Alarm` returns the sum of the deltas from the head through `x`, the
delta of `x` included, reduced modulo `2^32`; on the cancel path and on the re-arm path, and
whatever `mtimer->next` holds. -/
theorem Alarm_res_is_due_time_of_match (pre post : List Timer) (x mtimer : Timer)
    (next : List Timer) (hpre : mtimer.id ∉ ids pre) (hx : x.id = mtimer.id) :
    (Alarm (pre ++ x :: post) mtimer next).res = (sumSec pre + x.sec) % UINT := by
  have hres : (match findTimerPrev (pre ++ x :: post) mtimer.id with
      | Prev.null => 0
      | _ => elapsedLoop mtimer.id (pre ++ x :: post) 0) = (sumSec pre + x.sec) % UINT := by
    have he := elapsedLoop_split mtimer.id pre post x 0 hpre hx
    rw [Nat.zero_add] at he
    cases hf : findTimerPrev (pre ++ x :: post) mtimer.id with
    | null =>
      exfalso
      cases pre with
      | nil => simp [findTimerPrev, findTimerPrevLoop, hx] at hf
      | cons a pre =>
        have ha : ¬ a.id = mtimer.id := fun e => hpre (by simp [ids_cons, e])
        have hp : mtimer.id ∉ ids pre := fun e => hpre (by simp [ids_cons, e])
        have h2 : findTimerPrev (a :: (pre ++ x :: post)) mtimer.id = Prev.null := hf
        simp only [findTimerPrev, findTimerPrevLoop, ha, if_false] at h2
        rw [findTimerPrevLoop_split mtimer.id pre post x 0 (0 + 1) hp hx] at h2
        exact Prev.noConfusion h2
    | header => exact he
    | node i => exact he
  unfold Alarm
  simp only [hres]
  split
  · rfl
  · split <;> try split
    all_goals rfl

theorem Alarm_res_is_due_time_of_match_witness :
    (Alarm ([mallocTimer 1 11 2 0] ++ mallocTimer 2 12 3 0 :: [mallocTimer 3 13 3 0])
      (mallocTimer 2 12 0 0) []).res = (sumSec [mallocTimer 1 11 2 0] + 3) % UINT :=
  Alarm_res_is_due_time_of_match [mallocTimer 1 11 2 0] [mallocTimer 3 13 3 0]
    (mallocTimer 2 12 3 0) (mallocTimer 2 12 0 0) [] (by decide) (by decide)

/-! ## Cancelling -/

/-- C8: when no record of the list has the id of `mtimer` and `mtimer->sec` is 0, `Alarm`
returns 0, leaves the list as it is and raises no event: no `alarm`, no `kill`; whatever
`mtimer->next` holds. -/
theorem Alarm_cancel_unknown_id (h : List Timer) (mtimer : Timer) (next : List Timer)
    (hid : mtimer.id ∉ ids h) (hsec : mtimer.sec = 0) :
    Alarm h mtimer next = ⟨h, [], 0⟩ := by
  have hf : findTimerPrev h mtimer.id = Prev.null :=
    findTimerPrevLoop_absent _ _ _ _ hid
  simp [Alarm, hf, hsec, delTimer_absent h mtimer hid]

theorem Alarm_cancel_unknown_id_witness :
    Alarm [mallocTimer 1 11 2 0, mallocTimer 2 12 3 0] (mallocTimer 7 0 0 0) []
      = ⟨[mallocTimer 1 11 2 0, mallocTimer 2 12 3 0], [], 0⟩ :=
  Alarm_cancel_unknown_id [mallocTimer 1 11 2 0, mallocTimer 2 12 3 0] (mallocTimer 7 0 0 0) []
    (by decide) rfl

/-- C10, the code on the list 2, 3 (ids 1 and 2): cancelling the head leaves the one record of
id 2 with delta 5 and raises no event, and re-arming id 1 with delay 10 leaves id 2 at the head
with delta 5, before id 1, and raises no event: in neither case is `alarm(5)` called for the new
head. -/
theorem Alarm_head_removal_programs_nothing :
    Alarm [mallocTimer 1 11 2 0, mallocTimer 2 12 3 0] (mallocTimer 1 11 0 0) []
      = ⟨[mallocTimer 2 12 5 0], [], 2⟩ ∧
    Alarm [mallocTimer 1 11 2 0, mallocTimer 2 12 3 0] (mallocTimer 1 11 10 0) []
      = ⟨[mallocTimer 2 12 5 0, mallocTimer 1 11 5 0], [], 2⟩ := by
  decide

/-! ## Periodic timers -/

/-- C7, counterexample: on the list with the deltas 1 (id 1, period 5), 1 and `2^32 - 1`, whose
ids are distinct, `popTimer` puts the head back at the end with delta 5: the sum of the deltas
through it is `2^32 + 5`, not its period 5. -/
theorem popTimer_wrap_counterexample :
    (ids [mallocTimer 1 11 1 5, mallocTimer 2 12 1 0, mallocTimer 3 13 4294967295 0]).Nodup ∧
    popTimer [mallocTimer 1 11 1 5, mallocTimer 2 12 1 0, mallocTimer 3 13 4294967295 0]
      = some (some 11,
          [mallocTimer 2 12 1 0, mallocTimer 3 13 4294967295 0, mallocTimer 1 11 5 5], []) ∧
    dueTimes [mallocTimer 2 12 1 0, mallocTimer 3 13 4294967295 0, mallocTimer 1 11 5 5]
      = [mallocTimer 2 12 1 0, mallocTimer 3 13 4294967296 0, mallocTimer 1 11 4294967301 5] := by
  decide

/-- C7, amended: let the ids of `hd :: tl` be pairwise distinct, let the period `p` of `hd` be
above 0 and below `2^32`, and let the deltas of `tl` sum to less than `2^32`. Then `popTimer`
returns the handler of `hd`, raises no event, and leaves a list `R` that, read as due times, is
`tl` with `hd` due at `p` put in behind the records due at `p` or earlier and before the first
one due later: every record of `tl` keeps its place and the due time it had in `tl`, and exactly
one record has the id of `hd`, with the handler and the period of `hd`. -/
theorem popTimer_periodic_round_trip (hd : Timer) (tl : List Timer)
    (hnd : (ids (hd :: tl)).Nodup) (hp : 0 < hd.intersec) (hpb : hd.intersec < UINT)
    (hsum : sumSec tl < UINT) :
    ∃ R, popTimer (hd :: tl) = some (some hd.sigactor, R, []) ∧
      dueTimes R =
        (dueTimes tl).takeWhile (fun r => decide (r.sec ≤ hd.intersec))
          ++ { hd with sec := hd.intersec }
          :: (dueTimes tl).dropWhile (fun r => decide (r.sec ≤ hd.intersec)) ∧
      (dueTimes R).filter (fun r => decide (r.id = hd.id)) = [{ hd with sec := hd.intersec }] ∧
      R.length = tl.length + 1 := by
  have hid : hd.id ∉ ids tl := (List.nodup_cons.mp hnd).1
  have hndt : (ids tl).Nodup := (List.nodup_cons.mp hnd).2
  refine ⟨insertTimer tl { hd with sec := hd.intersec } [],
    popTimerWith_periodic _ hd tl hp hid, ?_, ?_⟩
  · rw [insertTimer_eq_insRel tl _ hsum hpb]
    simp only [dueTimes]
    rw [dueFrom_insRel]
    simp
  · have h := insertTimer_fresh tl { hd with sec := hd.intersec } hndt hid hsum hpb
    exact ⟨h.2.1, h.2.2⟩

theorem popTimer_periodic_round_trip_witness :
    ∃ R, popTimer (mallocTimer 1 11 2 4 :: [mallocTimer 2 12 1 0, mallocTimer 3 13 5 0])
        = some (some (mallocTimer 1 11 2 4).sigactor, R, []) ∧
      dueTimes R =
        (dueTimes [mallocTimer 2 12 1 0, mallocTimer 3 13 5 0]).takeWhile
            (fun r => decide (r.sec ≤ (mallocTimer 1 11 2 4).intersec))
          ++ { mallocTimer 1 11 2 4 with sec := (mallocTimer 1 11 2 4).intersec }
          :: (dueTimes [mallocTimer 2 12 1 0, mallocTimer 3 13 5 0]).dropWhile
            (fun r => decide (r.sec ≤ (mallocTimer 1 11 2 4).intersec)) ∧
      (dueTimes R).filter (fun r => decide (r.id = (mallocTimer 1 11 2 4).id))
        = [{ mallocTimer 1 11 2 4 with sec := (mallocTimer 1 11 2 4).intersec }] ∧
      R.length = [mallocTimer 2 12 1 0, mallocTimer 3 13 5 0].length + 1 :=
  popTimer_periodic_round_trip (mallocTimer 1 11 2 4)
    [mallocTimer 2 12 1 0, mallocTimer 3 13 5 0] (by decide) (by decide) (by decide) (by decide)

/-- C9: for a record `P` with period `p > 0` and delta `p` alone in the list, one run of the
handler calls the handler of `P` once, programs the countdown for `p` and leaves the list as it
was; so `n` successive expiries, the countdown being programmed for `p` at tick `now`, call the
handler of `P` `n` times, at the ticks `now + p`, `now + 2p`, ..., and leave the list as it was;
and `Alarm` with the id of `P` and delay 0 then leaves the empty list. -/
theorem lone_periodic_timer_fixed_point (P : Timer) (hp : 0 < P.intersec)
    (hsec : P.sec = P.intersec) :
    sig_alarm_internal 1 [P] = some ([P], [Event.alarm P.intersec, Event.call P.sigactor]) ∧
    (∀ n now, expiries 1 n now P.intersec [P]
      = some ([P], (List.range n).map (fun k => (now + (k + 1) * P.intersec, P.sigactor)))) ∧
    (∀ (c : Timer) (next : List Timer), c.id = P.id → c.sec = 0 →
      (Alarm [P] c next).list = []) := by
  have hP : ({ P with sec := P.intersec } : Timer) = P := by
    cases P
    simp only [Timer.mk.injEq, and_true] at hsec ⊢
    exact hsec.symm
  have hrun : sig_alarm_internal 1 [P]
      = some ([P], [Event.alarm P.intersec, Event.call P.sigactor]) := by
    have hpop := popTimerWith_periodic (sig_alarm_internal 0) P [] hp (by simp [ids])
    simp only [insertTimer, hP] at hpop
    have hstep := sig_alarm_internal_rearm 0 P P [] [] P.sigactor [] hpop (by omega)
    rw [hsec] at hstep
    exact hstep
  refine ⟨hrun, ?_, ?_⟩
  · intro n
    induction n with
    | zero => intro now; simp [expiries]
    | succ n ih =>
      intro now
      simp only [expiries, hrun, calls, lastAlarm, Option.orElse, List.map]
      rw [ih (now + P.intersec), List.range_succ_eq_map]
      simp only [List.map_cons, List.map_map, Nat.zero_add, Nat.one_mul, List.nil_append,
        List.cons_append]
      congr 3
      apply List.map_congr_left
      intro k _
      simp only [Function.comp, Prod.mk.injEq, and_true, Nat.succ_eq_add_one]
      ring
  · intro c next hc hc0
    have hne : P.sec ≠ 0 := by omega
    have hdel : delTimer [P] c = ([], []) := by
      rw [delTimer_head P [] c hc.symm, if_pos hne]
      rfl
    unfold Alarm
    simp [hc0, hdel]

theorem lone_periodic_timer_fixed_point_witness :
    sig_alarm_internal 1 [mallocTimer 1 11 3 3]
      = some ([mallocTimer 1 11 3 3], [Event.alarm 3, Event.call 11]) ∧
    expiries 1 3 0 3 [mallocTimer 1 11 3 3]
      = some ([mallocTimer 1 11 3 3], [(3, 11), (6, 11), (9, 11)]) ∧
    (Alarm [mallocTimer 1 11 3 3] (mallocTimer 1 11 0 0) []).list = [] :=
  ⟨(lone_periodic_timer_fixed_point (mallocTimer 1 11 3 3) (by decide) rfl).1,
    ((lone_periodic_timer_fixed_point (mallocTimer 1 11 3 3) (by decide) rfl).2.1 3 0).trans
      (by decide),
    (lone_periodic_timer_fixed_point (mallocTimer 1 11 3 3) (by decide) rfl).2.2
      (mallocTimer 1 11 0 0) [] rfl rfl⟩

/-! ## The insertion with wrap -/

theorem uadd_lt (a b : Nat) : uadd a b < UINT := by
  unfold uadd UINT
  omega

theorem usub_lt (a b : Nat) : usub a b < UINT := by
  unfold usub UINT
  omega

theorem usub_zero_right {a : Nat} (h : a < UINT) : usub a 0 = a := by
  unfold usub UINT at *
  omega

theorem linkAfterPrev_walk_insFrom (t : Timer) (rest before : List Timer) (pb b : Nat) :
    linkAfterPrev t (walk t.sec before rest pb b) = before ++ insFrom t b rest := by
  induction rest generalizing before pb b with
  | nil => simp [walk, linkAfterPrev, insFrom]
  | cons x rest ih =>
    unfold walk
    by_cases hlt : t.sec < uadd b x.sec
    · simp [hlt, linkAfterPrev, insFrom]
    · rw [if_neg hlt, ih (before ++ [x]) b (uadd b x.sec)]
      simp [insFrom, hlt]

theorem insertTimer_cons (hd : Timer) (tl : List Timer) (t : Timer) :
    insertTimer (hd :: tl) t [] =
      if t.sec < uadd 0 hd.sec then t :: { hd with sec := usub hd.sec t.sec } :: tl
      else hd :: insFrom t (uadd 0 hd.sec) tl := by
  unfold insertTimer
  simp only []
  unfold walk
  by_cases hlt : t.sec < uadd 0 hd.sec
  · simp [hlt]
  · rw [if_neg hlt, if_neg hlt]
    have hlen := walk_before_length t.sec tl ([] ++ [hd]) 0 (uadd 0 hd.sec)
    have hlink := linkAfterPrev_walk_insFrom t tl ([] ++ [hd]) 0 (uadd 0 hd.sec)
    split
    · next heq =>
      rw [heq] at hlen
      simp at hlen
    · rw [hlink]
      simp

theorem insFrom_zero_eq (t : Timer) (l : List Timer) (ht : t.sec < UINT) :
    insFrom t 0 l = insertTimer l t [] := by
  cases l with
  | nil => simp [insFrom, insertTimer, usub_zero_right ht]
  | cons x rest =>
    rw [insertTimer_cons]
    simp only [insFrom, usub_zero_right ht]

theorem insFrom_ne_nil (t : Timer) (b : Nat) (l : List Timer) : insFrom t b l ≠ [] := by
  cases l with
  | nil => simp [insFrom]
  | cons x rest =>
    unfold insFrom
    split <;> simp

theorem insertTimer_ne_nil (l : List Timer) (t : Timer) : insertTimer l t [] ≠ [] := by
  cases l with
  | nil => simp [insertTimer]
  | cons x rest =>
    rw [insertTimer_cons]
    split <;> simp

theorem length_insFrom (t : Timer) (b : Nat) (l : List Timer) :
    (insFrom t b l).length = l.length + 1 := by
  induction l generalizing b with
  | nil => rfl
  | cons x rest ih =>
    unfold insFrom
    split
    · rfl
    · simp [ih]

theorem length_insertTimer (l : List Timer) (t : Timer) :
    (insertTimer l t []).length = l.length + 1 := by
  cases l with
  | nil => rfl
  | cons x rest =>
    rw [insertTimer_cons]
    split
    · rfl
    · simp [length_insFrom]

theorem ids_insFrom_perm (t : Timer) (b : Nat) (l : List Timer) :
    (ids (insFrom t b l)).Perm (t.id :: ids l) := by
  induction l generalizing b with
  | nil => simp [insFrom, ids]
  | cons x rest ih =>
    unfold insFrom
    split
    · simp [ids]
    · simp only [ids_cons]
      exact ((ih (uadd b x.sec)).cons x.id).trans (List.Perm.swap _ _ _)

theorem ids_insertTimer_perm (l : List Timer) (t : Timer) :
    (ids (insertTimer l t [])).Perm (t.id :: ids l) := by
  cases l with
  | nil => simp [insertTimer, ids]
  | cons x rest =>
    rw [insertTimer_cons]
    split
    · simp [ids]
    · simp only [ids_cons]
      exact ((ids_insFrom_perm t _ rest).cons x.id).trans (List.Perm.swap _ _ _)

theorem Typed_cons {x : Timer} {l : List Timer} :
    Typed (x :: l) ↔ (x.sec < UINT ∧ x.intersec < UINT) ∧ Typed l := by
  simp [Typed]

theorem Typed_append {l m : List Timer} : Typed (l ++ m) ↔ Typed l ∧ Typed m := by
  simp only [Typed, List.mem_append]
  constructor
  · intro h
    exact ⟨fun r hr => h r (Or.inl hr), fun r hr => h r (Or.inr hr)⟩
  · rintro ⟨h1, h2⟩ r (hr | hr)
    · exact h1 r hr
    · exact h2 r hr

theorem Typed_insFrom (t : Timer) (b : Nat) (l : List Timer) (hl : Typed l)
    (hti : t.intersec < UINT) : Typed (insFrom t b l) := by
  induction l generalizing b with
  | nil =>
    simp only [insFrom]
    exact Typed_cons.mpr ⟨⟨usub_lt _ _, hti⟩, hl⟩
  | cons x rest ih =>
    obtain ⟨hx, hr⟩ := Typed_cons.mp hl
    unfold insFrom
    split
    · exact Typed_cons.mpr ⟨⟨usub_lt _ _, hti⟩, Typed_cons.mpr ⟨⟨usub_lt _ _, hx.2⟩, hr⟩⟩
    · exact Typed_cons.mpr ⟨hx, ih (uadd b x.sec) hr⟩

theorem Typed_insertTimer (l : List Timer) (t : Timer) (hl : Typed l)
    (ht : t.sec < UINT) (hti : t.intersec < UINT) : Typed (insertTimer l t []) := by
  cases l with
  | nil =>
    simp only [insertTimer]
    exact Typed_cons.mpr ⟨⟨ht, hti⟩, hl⟩
  | cons x rest =>
    obtain ⟨hx, hr⟩ := Typed_cons.mp hl
    rw [insertTimer_cons]
    split
    · exact Typed_cons.mpr ⟨⟨ht, hti⟩, Typed_cons.mpr ⟨⟨usub_lt _ _, hx.2⟩, hr⟩⟩
    · exact Typed_cons.mpr ⟨hx, Typed_insFrom t _ rest hr hti⟩

theorem Typed_addBase (b : Nat) (l : List Timer) (hl : Typed l) : Typed (addBase b l) := by
  induction l with
  | nil => exact hl
  | cons x rest ih =>
    obtain ⟨hx, hr⟩ := Typed_cons.mp hl
    simp only [addBase]
    exact Typed_cons.mpr ⟨⟨uadd_lt _ _, hx.2⟩, ih hr⟩

theorem HeadPos_insertTimer (l : List Timer) (t : Timer) (hl : HeadPos l) (ht : 0 < t.sec) :
    HeadPos (insertTimer l t []) := by
  cases l with
  | nil => exact ht
  | cons x rest =>
    rw [insertTimer_cons]
    split
    · exact ht
    · exact hl

theorem zeros_insFrom (t : Timer) (l : List Timer) (ht : 0 < t.sec) (htb : t.sec < UINT) :
    zeros (insFrom t 0 l) = zeros l := by
  have hu : usub t.sec 0 = t.sec := usub_zero_right htb
  have hne : ¬ t.sec = 0 := by omega
  induction l with
  | nil => simp [insFrom, zeros, hu, hne]
  | cons x rest ih =>
    by_cases hx : x.sec = 0
    · have h0 : uadd 0 x.sec = 0 := by rw [hx]; rfl
      have hlt : ¬ t.sec < uadd 0 x.sec := by rw [h0]; omega
      simp only [insFrom, hlt, if_false, zeros, hx, if_true]
      have h00 : uadd 0 0 = 0 := rfl
      rw [h00, ih]
    · unfold insFrom
      split
      · simp [zeros, hu, hne, hx]
      · simp [zeros, hx]

theorem zeros_insertTimer (l : List Timer) (t : Timer) (ht : 0 < t.sec) (htb : t.sec < UINT) :
    zeros (insertTimer l t []) = zeros l := by
  rw [← insFrom_zero_eq t l htb]
  exact zeros_insFrom t l ht htb

theorem insertTimer_zeros_append (zs rest : List Timer) (t : Timer)
    (hz : ∀ z ∈ zs, z.sec = 0) (htb : t.sec < UINT) :
    insertTimer (zs ++ rest) t [] = zs ++ insertTimer rest t [] := by
  rw [← insFrom_zero_eq t _ htb, ← insFrom_zero_eq t rest htb]
  induction zs with
  | nil => rfl
  | cons z zs ih =>
    have hz0 : z.sec = 0 := hz z (List.mem_cons_self _ _)
    have h0 : uadd 0 z.sec = 0 := by rw [hz0]; rfl
    have hlt : ¬ t.sec < uadd 0 z.sec := by rw [h0]; omega
    show insFrom t 0 (z :: (zs ++ rest)) = z :: (zs ++ insFrom t 0 rest)
    simp only [insFrom, hlt, if_false]
    rw [h0, ih (fun y hy => hz y (List.mem_cons_of_mem _ hy))]

/-! ## The three outcomes of the removal -/

theorem delTimer_cases (h : List Timer) (t : Timer) :
    (t.id ∉ ids h ∧ delTimer h t = (h, [])) ∨
    (∃ pre x post, h = pre ++ x :: post ∧ t.id ∉ ids pre ∧ x.id = t.id ∧
      (pre ≠ [] ∨ x.sec ≠ 0) ∧ delTimer h t = (pre ++ addBase x.sec post, [])) ∨
    (∃ x post, h = x :: post ∧ x.id = t.id ∧ x.sec = 0 ∧
      delTimer h t = (h, [Event.kill])) := by
  by_cases hin : t.id ∈ ids h
  · obtain ⟨pre, x, post, he, hp, hx⟩ := exists_first_with_id t.id h hin
    subst he
    cases pre with
    | nil =>
      by_cases hs : x.sec = 0
      · refine Or.inr (Or.inr ⟨x, post, rfl, hx, hs, ?_⟩)
        rw [List.nil_append, delTimer_head x post t hx]
        simp [hs]
      · refine Or.inr (Or.inl ⟨[], x, post, rfl, hp, hx, Or.inr hs, ?_⟩)
        rw [List.nil_append, delTimer_head x post t hx, if_pos hs]
        rfl
    | cons a pre =>
      exact Or.inr (Or.inl ⟨a :: pre, x, post, rfl, hp, hx, Or.inl (by simp),
        delTimer_interior a pre post x t hp hx⟩)
  · exact Or.inl ⟨hin, delTimer_absent h t hin⟩

theorem Typed_delTimer (h : List Timer) (t : Timer) (hT : Typed h) :
    Typed (delTimer h t).1 := by
  rcases delTimer_cases h t with ⟨_, hd⟩ | ⟨pre, x, post, he, _, _, _, hd⟩ | ⟨_, _, _, _, _, hd⟩
  · rw [hd]; exact hT
  · rw [hd]
    subst he
    obtain ⟨h1, h2⟩ := Typed_append.mp hT
    exact Typed_append.mpr ⟨h1, Typed_addBase _ _ (Typed_cons.mp h2).2⟩
  · rw [hd]; exact hT

theorem delTimer_events (h : List Timer) (t : Timer) :
    (delTimer h t).2 = [] ∨ (delTimer h t).2 = [Event.kill] := by
  rcases delTimer_cases h t with ⟨_, hd⟩ | ⟨_, _, _, _, _, _, _, hd⟩ | ⟨_, _, _, _, _, hd⟩
  · rw [hd]; exact Or.inl rfl
  · rw [hd]; exact Or.inl rfl
  · rw [hd]; exact Or.inr rfl

/-- With a head of delta above 0, or an empty list, the removal raises nothing. -/
theorem delTimer_quiet_of_HeadPos (h : List Timer) (t : Timer) (hp : HeadPos h) :
    (delTimer h t).2 = [] := by
  rcases delTimer_cases h t with ⟨_, hd⟩ | ⟨_, _, _, _, _, _, _, hd⟩ | ⟨x, post, he, _, hs, _⟩
  · rw [hd]
  · rw [hd]
  · subst he
    have : 0 < x.sec := hp
    omega

/-! ## The subtractions of the insertion -/

/-- C12: for a list with pairwise distinct ids whose head `hd` has period 0, `popTimer` returns
the handler of `hd`, raises no event and leaves exactly the tail: every other record as it was
(delta, period, id, handler), and no record with the id of `hd`. -/
theorem popTimer_oneshot_discards (hd : Timer) (tl : List Timer) (hp : hd.intersec = 0)
    (hnd : (ids (hd :: tl)).Nodup) :
    popTimer (hd :: tl) = some (some hd.sigactor, tl, []) ∧ hd.id ∉ ids tl :=
  ⟨popTimerWith_oneshot _ hd tl hp, (List.nodup_cons.mp hnd).1⟩

theorem popTimer_oneshot_discards_witness :
    popTimer (mallocTimer 1 11 2 0 :: [mallocTimer 2 12 0 3, mallocTimer 3 13 4 0])
      = some (some 11, [mallocTimer 2 12 0 3, mallocTimer 3 13 4 0], []) ∧
    (1 : Int) ∉ ids [mallocTimer 2 12 0 3, mallocTimer 3 13 4 0] :=
  popTimer_oneshot_discards (mallocTimer 1 11 2 0)
    [mallocTimer 2 12 0 3, mallocTimer 3 13 4 0] rfl (by decide)

/-- C15: when the head of the list has the id of `t` and delta 0, `delTimer` leaves the list as
it is, the head included, and raises SIGALRM once. -/
theorem delTimer_due_head_stays (x : Timer) (post : List Timer) (t : Timer)
    (hx : x.id = t.id) (hs : x.sec = 0) :
    delTimer (x :: post) t = (x :: post, [Event.kill]) := by
  rw [delTimer_head x post t hx]
  simp [hs]

theorem delTimer_due_head_stays_witness :
    delTimer (mallocTimer 1 11 0 0 :: [mallocTimer 2 12 3 0]) (mallocTimer 1 0 0 0)
      = (mallocTimer 1 11 0 0 :: [mallocTimer 2 12 3 0], [Event.kill]) :=
  delTimer_due_head_stays (mallocTimer 1 11 0 0) [mallocTimer 2 12 3 0] (mallocTimer 1 0 0 0)
    rfl rfl

/-- C16, counterexample: with a head of id 1 and delta 0, `delTimer` for id 1 leaves the list as
it is, the record of id 1 included; and with two records of id 1 (deltas 2 and 3) it removes the
first only and leaves the second, with delta 5. -/
theorem delTimer_keeps_the_id :
    delTimer [mallocTimer 1 11 0 0, mallocTimer 2 12 3 0] (mallocTimer 1 0 0 0)
      = ([mallocTimer 1 11 0 0, mallocTimer 2 12 3 0], [Event.kill]) ∧
    (mallocTimer 1 0 0 0).id ∈ ids (delTimer [mallocTimer 1 11 0 0, mallocTimer 2 12 3 0]
      (mallocTimer 1 0 0 0)).1 ∧
    delTimer [mallocTimer 1 11 2 0, mallocTimer 1 12 3 0] (mallocTimer 1 0 0 0)
      = ([mallocTimer 1 12 5 0], []) ∧
    (mallocTimer 1 0 0 0).id ∈ ids (delTimer [mallocTimer 1 11 2 0, mallocTimer 1 12 3 0]
      (mallocTimer 1 0 0 0)).1 := by
  decide

/-- C16, amended: when the ids of the list are pairwise distinct and its head, if it carries the
id of `t`, has a delta above 0, the list left by `delTimer` holds no record with the id of
`t`. -/
theorem delTimer_removes_the_id (h : List Timer) (t : Timer) (hnd : (ids h).Nodup)
    (hhead : ∀ hd tl, h = hd :: tl → hd.id = t.id → 0 < hd.sec) :
    t.id ∉ ids (delTimer h t).1 := by
  by_cases hin : t.id ∈ ids h
  · exact (delTimer_present h t hnd hin hhead).2.1
  · rw [delTimer_absent h t hin]
    exact hin

theorem delTimer_removes_the_id_witness :
    (mallocTimer 2 0 0 0).id ∉ ids (delTimer
      [mallocTimer 1 11 2 0, mallocTimer 2 12 1 0, mallocTimer 3 13 1 0] (mallocTimer 2 0 0 0)).1 :=
  delTimer_removes_the_id [mallocTimer 1 11 2 0, mallocTimer 2 12 1 0, mallocTimer 3 13 1 0]
    (mallocTimer 2 0 0 0) (by decide) (by intro hd tl h; cases h; decide)

/-! ## The place of a record that ties -/

theorem insFrom_passes (t : Timer) (pre : List Timer) (x : Timer) (post : List Timer) (b : Nat)
    (hle : b + sumSec pre + x.sec ≤ t.sec) (ht : t.sec < UINT) :
    insFrom t b (pre ++ x :: post) = pre ++ x :: insFrom t (b + sumSec pre + x.sec) post := by
  induction pre generalizing b with
  | nil =>
    simp only [sumSec, Nat.add_zero] at hle
    have h1 : uadd b x.sec = b + x.sec := uadd_exact (by omega)
    simp [insFrom, h1, sumSec, Nat.not_lt.mpr hle]
  | cons a pre ih =>
    simp only [sumSec] at hle
    have h1 : uadd b a.sec = b + a.sec := uadd_exact (by omega)
    have h2 : ¬ t.sec < b + a.sec := by omega
    show insFrom t b (a :: (pre ++ x :: post)) = _
    simp only [insFrom, h1, h2, if_false, sumSec, List.cons_append]
    rw [ih (b + a.sec) (by omega)]
    have h3 : b + a.sec + sumSec pre + x.sec = b + (a.sec + sumSec pre) + x.sec := by omega
    rw [h3]

theorem insFrom_holds_t (t : Timer) (b : Nat) (l : List Timer) :
    ∃ mid s post, insFrom t b l = mid ++ { t with sec := s } :: post := by
  induction l generalizing b with
  | nil => exact ⟨[], _, [], rfl⟩
  | cons x rest ih =>
    unfold insFrom
    split
    · exact ⟨[], _, _, rfl⟩
    · obtain ⟨mid, s, post, he⟩ := ih (uadd b x.sec)
      exact ⟨x :: mid, s, post, by simp [he]⟩

/-- C13, counterexample: the list holds one record, of id 1 and due at 5; the new record of id 2
with `sec = 5` is put behind it, with delta 0, not before it. -/
theorem appendTimer_tie_counterexample :
    dueTimes [mallocTimer 1 11 5 0] = [mallocTimer 1 11 5 0] ∧
    appendTimer [mallocTimer 1 11 5 0] (mallocTimer 2 12 5 0) []
      = ([mallocTimer 1 11 5 0, mallocTimer 2 12 0 0], []) := by
  decide

/-- C13, amended: when no record of the list has the id of `t` and the record `x` of the list is
due exactly at `t.sec` (the deltas from the head through `x` sum to `t.sec`, below `2^32`),
`appendTimer` leaves the records up to and including `x` as they were and puts `t` (with some
delta `s`) strictly behind `x`; whatever `t->next` holds. -/
theorem appendTimer_tie_goes_behind (pre : List Timer) (x : Timer) (post : List Timer)
    (t : Timer) (next : List Timer) (hid : t.id ∉ ids (pre ++ x :: post))
    (hdue : sumSec pre + x.sec = t.sec) (ht : t.sec < UINT) :
    ∃ mid s post2, (appendTimer (pre ++ x :: post) t next).1
      = pre ++ x :: (mid ++ { t with sec := s } :: post2) := by
  simp only [appendTimer, delTimer_absent _ t hid]
  rw [insertTimer_of_link _ t next (Or.inl (by simp)), ← insFrom_zero_eq t _ ht,
    insFrom_passes t pre x post 0 (by omega) ht]
  obtain ⟨mid, s, post2, he⟩ := insFrom_holds_t t (0 + sumSec pre + x.sec) post
  exact ⟨mid, s, post2, by rw [he]⟩

theorem appendTimer_tie_goes_behind_witness :
    ∃ mid s post2, (appendTimer ([mallocTimer 1 11 2 0] ++ mallocTimer 2 12 3 0
        :: [mallocTimer 3 13 3 0]) (mallocTimer 4 14 5 0) []).1
      = [mallocTimer 1 11 2 0] ++ mallocTimer 2 12 3 0
        :: (mid ++ { mallocTimer 4 14 5 0 with sec := s } :: post2) :=
  appendTimer_tie_goes_behind [mallocTimer 1 11 2 0] (mallocTimer 2 12 3 0)
    [mallocTimer 3 13 3 0] (mallocTimer 4 14 5 0) [] (by decide) (by decide) (by decide)

/-! ## The events of an arming call -/

theorem Alarm_events_head_new (h : List Timer) (t hd : Timer) (rest next : List Timer)
    (hpos : t.sec ≠ 0) (he : insertTimer (delTimer h t).1 t next = hd :: rest)
    (hid : t.id = hd.id) :
    (Alarm h t next).events
      = (delTimer h t).2 ++ [if hd.sec > 0 then Event.alarm hd.sec else Event.kill] := by
  unfold Alarm
  simp only [hpos, if_false, appendTimer, he, hid, if_true]

theorem Alarm_events_head_old (h : List Timer) (t hd : Timer) (rest next : List Timer)
    (hpos : t.sec ≠ 0) (he : insertTimer (delTimer h t).1 t next = hd :: rest)
    (hid : t.id ≠ hd.id) :
    (Alarm h t next).events = (delTimer h t).2 := by
  unfold Alarm
  simp only [hpos, if_false, appendTimer, he, hid]

/-- The removal leaves no record with the id of `t` when at most one record of the list has
that id and the head, if it has that id, has a delta above 0; and it raises no event. -/
theorem delTimer_single (L : List Timer) (t : Timer) (hone : (ids L).count t.id ≤ 1)
    (hhead : ∀ hd tl, L = hd :: tl → hd.id = t.id → 0 < hd.sec) :
    (delTimer L t).2 = [] ∧ t.id ∉ ids (delTimer L t).1 := by
  rcases delTimer_cases L t with ⟨hin, hd⟩ | ⟨pre, x, post, he, hp, hx, _, hd⟩ |
    ⟨x, post, he, hx, hs, _⟩
  · rw [hd]
    exact ⟨rfl, hin⟩
  · rw [hd]
    refine ⟨rfl, ?_⟩
    subst he
    rw [ids_append, ids_cons, List.count_append, List.count_cons, hx] at hone
    simp only [beq_self_eq_true, if_true] at hone
    have hpost : (ids post).count t.id = 0 := by omega
    rw [ids_append, ids_addBase, List.mem_append, not_or]
    exact ⟨hp, List.count_eq_zero.mp hpost⟩
  · have := hhead x post he hx
    omega

/-- The head and the events left by an arming call on a list in which at most one record has
the armed id and whose head, if it carries the armed id, has a delta above 0. -/
theorem Alarm_arm_head_cases (L : List Timer) (t : Timer) (next : List Timer)
    (hone : (ids L).count t.id ≤ 1)
    (hpos : 0 < t.sec) (hhead : ∀ hd tl, L = hd :: tl → hd.id = t.id → 0 < hd.sec) :
    ∃ hd rest, (Alarm L t next).list = hd :: rest ∧
      ((hd = t ∧ (Alarm L t next).events = [Event.alarm t.sec]) ∨
        (hd.id ≠ t.id ∧ (Alarm L t next).events = [])) := by
  have hne : t.sec ≠ 0 := by omega
  have hdel := delTimer_single L t hone hhead
  have hnew : ∀ rest, insertTimer (delTimer L t).1 t next = t :: rest →
      (Alarm L t next).events = [Event.alarm t.sec] := by
    intro rest he
    rw [Alarm_events_head_new L t t rest next hne he rfl, hdel.1]
    simp [hpos]
  rw [Alarm_list_of_arm L t next hne]
  cases hL : (delTimer L t).1 with
  | nil =>
    refine ⟨t, next, rfl, Or.inl ⟨rfl, hnew next ?_⟩⟩
    rw [hL]
    rfl
  | cons x r =>
    rw [insertTimer_next, insertTimer_cons]
    by_cases hlt : t.sec < uadd 0 x.sec
    · rw [if_pos hlt]
      refine ⟨t, _, rfl, Or.inl ⟨rfl, hnew ({ x with sec := usub x.sec t.sec } :: r) ?_⟩⟩
      rw [hL, insertTimer_next, insertTimer_cons, if_pos hlt]
    · rw [if_neg hlt]
      have hx : t.id ≠ x.id := by
        intro e
        apply hdel.2
        rw [hL, ids_cons, e]
        exact List.mem_cons_self _ _
      refine ⟨x, _, rfl, Or.inr ⟨Ne.symm hx, ?_⟩⟩
      rw [Alarm_events_head_old L t x _ next hne
        (by rw [hL, insertTimer_next, insertTimer_cons, if_neg hlt]) hx]
      exact hdel.1

theorem count_le_one_of_nodup (l : List Int) (a : Int) (h : l.Nodup) : l.count a ≤ 1 :=
  List.nodup_iff_count_le_one.mp h a

theorem popTimerWith_quiet (k : List Timer → Option (List Timer × List Event))
    (hd : Timer) (tl l : List Timer) (hp : 0 < hd.intersec)
    (hdel : delTimer tl { hd with sec := hd.intersec } = (l, [])) :
    popTimerWith k (hd :: tl) =
      some (some hd.sigactor,
        (if l = [] then { hd with sec := hd.intersec } :: tl
          else insertTimer l { hd with sec := hd.intersec } []), []) := by
  rw [← insertTimer_eq_ite]
  simp [popTimerWith, hp, hdel]

theorem popTimerWith_kill (k : List Timer → Option (List Timer × List Event))
    (hd : Timer) (tl : List Timer) (hp : 0 < hd.intersec)
    (hdel : delTimer tl { hd with sec := hd.intersec } = (tl, [Event.kill])) :
    popTimerWith k (hd :: tl) =
      (k tl).map (fun r => (some hd.sigactor,
        (if r.1 = [] then { hd with sec := hd.intersec } :: tl
          else insertTimer r.1 { hd with sec := hd.intersec } []), Event.kill :: r.2)) := by
  simp only [popTimerWith, hp, gt_iff_lt, if_true, hdel, ← insertTimer_eq_ite]
  cases k tl with
  | none => rfl
  | some r => rfl

theorem lastAlarm_append_some (a b : List Event) (s : Nat) (h : lastAlarm b = some s) :
    lastAlarm (a ++ b) = some s := by
  induction a with
  | nil => exact h
  | cons e a ih => cases e <;> simp [lastAlarm, ih, Option.orElse]

theorem Typed_relink (hd : Timer) (tl l : List Timer) (hT : Typed (hd :: tl)) (hl : Typed l) :
    Typed (if l = [] then { hd with sec := hd.intersec } :: tl
      else insertTimer l { hd with sec := hd.intersec } []) := by
  obtain ⟨hh, ht⟩ := Typed_cons.mp hT
  split
  · exact Typed_cons.mpr ⟨⟨hh.2, hh.2⟩, ht⟩
  · exact Typed_insertTimer l _ hl hh.2 hh.2

theorem HeadPos_relink (hd : Timer) (tl l : List Timer) (hp : 0 < hd.intersec)
    (hl : HeadPos l) :
    HeadPos (if l = [] then { hd with sec := hd.intersec } :: tl
      else insertTimer l { hd with sec := hd.intersec } []) := by
  split
  · exact hp
  · exact HeadPos_insertTimer l _ hl hp

/-- What `popTimer` leaves, whatever a `kill` inside it runs, as long as that run keeps the
fields in `unsigned int` and starts no countdown of 0. -/
theorem popTimerWith_sound (k : List Timer → Option (List Timer × List Event))
    (hk : ∀ l r, Typed l → k l = some r → Typed r.1 ∧ Event.alarm 0 ∉ r.2)
    (hd : Timer) (tl : List Timer) (hT : Typed (hd :: tl))
    (recv : Option Nat) (l1 : List Timer) (ev1 : List Event)
    (hpop : popTimerWith k (hd :: tl) = some (recv, l1, ev1)) :
    recv = some hd.sigactor ∧ Typed l1 ∧ Event.alarm 0 ∉ ev1 := by
  have htl : Typed tl := (Typed_cons.mp hT).2
  by_cases hp : hd.intersec = 0
  · rw [popTimerWith_oneshot k hd tl hp] at hpop
    cases hpop
    exact ⟨rfl, htl, by simp⟩
  · have hp2 : 0 < hd.intersec := by omega
    rcases delTimer_cases tl { hd with sec := hd.intersec } with
      ⟨_, hdel⟩ | ⟨pre, x, post, he, _, _, _, hdel⟩ | ⟨_, _, _, _, _, hdel⟩
    · rw [popTimerWith_quiet k hd tl tl hp2 hdel] at hpop
      cases hpop
      exact ⟨rfl, Typed_relink hd tl tl hT htl, by simp⟩
    · have hTl : Typed (pre ++ addBase x.sec post) := by
        have := Typed_delTimer tl { hd with sec := hd.intersec } htl
        rw [hdel] at this
        exact this
      rw [popTimerWith_quiet k hd tl _ hp2 hdel] at hpop
      cases hpop
      exact ⟨rfl, Typed_relink hd tl _ hT hTl, by simp⟩
    · rw [popTimerWith_kill k hd tl hp2 hdel] at hpop
      cases hk2 : k tl with
      | none => rw [hk2] at hpop; cases hpop
      | some r =>
        rw [hk2] at hpop
        cases hpop
        obtain ⟨h1, h2⟩ := hk tl r htl hk2
        exact ⟨rfl, Typed_relink hd tl r.1 hT h1, by simpa using h2⟩

/-- What a run of the handler that ends leaves: fields in `unsigned int`, a list that is empty
or has a head above 0, no countdown of 0, and the countdown for the head as the last one. -/
theorem sig_alarm_internal_sound (fuel : Nat) : ∀ (l : List Timer) (r : List Timer × List Event),
    Typed l → sig_alarm_internal fuel l = some r →
    Typed r.1 ∧ HeadPos r.1 ∧ Event.alarm 0 ∉ r.2 ∧
      (l ≠ [] → ∀ hd rest, r.1 = hd :: rest → lastAlarm r.2 = some hd.sec) := by
  induction fuel with
  | zero =>
    intro l r _ h
    simp [sig_alarm_internal] at h
  | succ f ih =>
    intro l r hT h
    cases l with
    | nil =>
      simp only [sig_alarm_internal, Option.some.injEq] at h
      subst h
      exact ⟨hT, trivial, by simp, fun hne => absurd rfl hne⟩
    | cons hd tl =>
      have hk : ∀ l r, Typed l → sig_alarm_internal f l = some r →
          Typed r.1 ∧ Event.alarm 0 ∉ r.2 :=
        fun l r hl hr => ⟨(ih l r hl hr).1, (ih l r hl hr).2.2.1⟩
      cases hpop : popTimerWith (sig_alarm_internal f) (hd :: tl) with
      | none => simp [sig_alarm_internal, hpop] at h
      | some p =>
        obtain ⟨recv, l1, ev1⟩ := p
        obtain ⟨hrecv, hT1, hev1⟩ := popTimerWith_sound _ hk hd tl hT recv l1 ev1 hpop
        subst hrecv
        cases l1 with
        | nil =>
          rw [sig_alarm_internal_last f hd tl hd.sigactor ev1 hpop] at h
          cases h
          exact ⟨hT1, trivial, by simpa using hev1, fun _ hd2 rest he => by cases he⟩
        | cons nxt rest =>
          by_cases hpos : 0 < nxt.sec
          · rw [sig_alarm_internal_rearm f hd nxt tl rest hd.sigactor ev1 hpop hpos] at h
            cases h
            refine ⟨hT1, hpos, ?_, ?_⟩
            · have hne : ¬ 0 = nxt.sec := by omega
              simpa [hne] using hev1
            · intro _ hd2 rest2 he
              cases he
              exact lastAlarm_append_some ev1 _ _ (by simp [lastAlarm, Option.orElse])
          · have hz : nxt.sec = 0 := by omega
            rw [sig_alarm_internal_nested f hd nxt tl rest hd.sigactor ev1 hpop hz] at h
            cases h2 : sig_alarm_internal f (nxt :: rest) with
            | none => rw [h2] at h; cases h
            | some r2 =>
              rw [h2] at h
              cases h
              obtain ⟨k1, k2, k3, k4⟩ := ih (nxt :: rest) r2 hT1 h2
              refine ⟨k1, k2, ?_, ?_⟩
              · simpa using ⟨hev1, k3⟩
              · intro _ hd2 rest2 he
                have h5 := k4 (by simp) hd2 rest2 he
                have h6 : lastAlarm (r2.2 ++ [Event.call hd.sigactor]) = some hd2.sec := by
                  have : ∀ a : List Event, lastAlarm (a ++ [Event.call hd.sigactor])
                      = lastAlarm a := by
                    intro a
                    induction a with
                    | nil => rfl
                    | cons e a iha => cases e <;> simp [lastAlarm, iha]
                  rw [this]
                  exact h5
                show lastAlarm (ev1 ++ Event.kill :: r2.2 ++ [Event.call hd.sigactor]) = _
                have h7 : ev1 ++ Event.kill :: r2.2 ++ [Event.call hd.sigactor]
                    = (ev1 ++ [Event.kill]) ++ (r2.2 ++ [Event.call hd.sigactor]) := by simp
                rw [h7]
                exact lastAlarm_append_some _ _ _ h6

theorem sig_alarm_internal_of_pop (hd : Timer) (tl : List Timer) (recv : Nat)
    (l1 : List Timer) (ev1 : List Event)
    (hpop : ∀ k, popTimerWith k (hd :: tl) = some (some recv, l1, ev1))
    (hnext : HeadPos l1 ∨ ∃ f r, sig_alarm_internal f l1 = some r) :
    ∃ fuel r, sig_alarm_internal fuel (hd :: tl) = some r := by
  cases l1 with
  | nil => exact ⟨1, _, sig_alarm_internal_last 0 hd tl recv ev1 (hpop _)⟩
  | cons nxt rest =>
    by_cases hpos : 0 < nxt.sec
    · exact ⟨1, _, sig_alarm_internal_rearm 0 hd nxt tl rest recv ev1 (hpop _) hpos⟩
    · have hz : nxt.sec = 0 := by omega
      rcases hnext with h | ⟨f, r, h⟩
      · exact absurd h hpos
      · refine ⟨f + 1, (r.1, ev1 ++ Event.kill :: r.2 ++ [Event.call recv]), ?_⟩
        rw [sig_alarm_internal_nested f hd nxt tl rest recv ev1 (hpop _) hz, h]
        rfl

theorem zeros_tail_of_zero_head (l : List Timer) (h : ¬ HeadPos l) :
    zeros l.tail + 1 = zeros l := by
  cases l with
  | nil => exact absurd trivial h
  | cons x rest =>
    have hx : x.sec = 0 := by
      have : ¬ 0 < x.sec := h
      omega
    simp [zeros, hx]

theorem sig_alarm_internal_step_ends (l : List Timer) (hT : Typed l)
    (hout : ∀ l2, Typed l2 → l2.length < l.length →
      ∃ fuel r, sig_alarm_internal fuel l2 = some r)
    (hin : ∀ l2, Typed l2 → l2.length = l.length → zeros l2.tail < zeros l.tail →
      ∃ fuel r, sig_alarm_internal fuel l2 = some r) :
    ∃ fuel r, sig_alarm_internal fuel l = some r := by
  cases l with
  | nil => exact ⟨1, ([], []), rfl⟩
  | cons hd tl =>
    obtain ⟨hh, htl⟩ := Typed_cons.mp hT
    by_cases hp : hd.intersec = 0
    · exact sig_alarm_internal_of_pop hd tl hd.sigactor tl []
        (fun k => popTimerWith_oneshot k hd tl hp) (Or.inr (hout tl htl (by simp)))
    · have hp2 : 0 < hd.intersec := by omega
      rcases delTimer_cases tl { hd with sec := hd.intersec } with
        ⟨hid, _⟩ | ⟨pre, x, post, he, _, _, _, hdel⟩ | ⟨x, post, he, _, hx0, hdel⟩
      · refine sig_alarm_internal_of_pop hd tl hd.sigactor _ []
          (fun k => popTimerWith_periodic k hd tl hp2 hid) ?_
        by_cases hpos : HeadPos (insertTimer tl { hd with sec := hd.intersec } [])
        · exact Or.inl hpos
        · refine Or.inr (hin _ (Typed_insertTimer tl _ htl hh.2 hh.2) ?_ ?_)
          · simp [length_insertTimer]
          · have h1 := zeros_tail_of_zero_head _ hpos
            have h2 := zeros_insertTimer tl { hd with sec := hd.intersec } hp2 hh.2
            simp only [List.tail_cons]
            omega
      · have hTl : Typed (pre ++ addBase x.sec post) := by
          have := Typed_delTimer tl { hd with sec := hd.intersec } htl
          rw [hdel] at this
          exact this
        have hlen : (pre ++ addBase x.sec post).length + 1 = tl.length := by
          rw [he]
          simp only [List.length_append, List.length_cons, length_addBase]
          omega
        by_cases hl : pre ++ addBase x.sec post = []
        · refine sig_alarm_internal_of_pop hd tl hd.sigactor
            ({ hd with sec := hd.intersec } :: tl) [] (fun k => ?_) (Or.inl hp2)
          rw [popTimerWith_quiet k hd tl _ hp2 hdel, if_pos hl]
        · refine sig_alarm_internal_of_pop hd tl hd.sigactor
            (insertTimer (pre ++ addBase x.sec post) { hd with sec := hd.intersec } []) []
            (fun k => ?_) (Or.inr (hout _ (Typed_insertTimer _ _ hTl hh.2 hh.2) ?_))
          · rw [popTimerWith_quiet k hd tl _ hp2 hdel, if_neg hl]
          · simp only [length_insertTimer, List.length_cons]
            omega
      · obtain ⟨f, r2, h2⟩ := hout tl htl (by simp)
        obtain ⟨k1, k2, _, _⟩ := sig_alarm_internal_sound f tl r2 htl h2
        have hpop := popTimerWith_kill (sig_alarm_internal f) hd tl hp2 hdel
        rw [h2] at hpop
        simp only [Option.map] at hpop
        have hpos := HeadPos_relink hd tl r2.1 hp2 k2
        cases hl1 : (if r2.1 = [] then { hd with sec := hd.intersec } :: tl
            else insertTimer r2.1 { hd with sec := hd.intersec } []) with
        | nil =>
          exfalso
          split at hl1
          · cases hl1
          · exact insertTimer_ne_nil _ _ hl1
        | cons nxt rest =>
          rw [hl1] at hpop hpos
          exact ⟨f + 1, _, sig_alarm_internal_rearm f hd nxt tl rest hd.sigactor _ hpop hpos⟩

/-- Every run of the handler ends when it is given enough depth. -/
theorem sig_alarm_internal_ends : ∀ (n m : Nat) (l : List Timer), Typed l → l.length = n →
    zeros l.tail = m → ∃ fuel r, sig_alarm_internal fuel l = some r := by
  intro n
  induction n using Nat.strong_induction_on with
  | _ n ihn =>
    intro m
    induction m using Nat.strong_induction_on with
    | _ m ihm =>
      intro l hT hlen hz
      apply sig_alarm_internal_step_ends l hT
      · intro l2 hT2 hlt
        exact ihn l2.length (by omega) _ l2 hT2 rfl rfl
      · intro l2 hT2 heq hzl
        exact ihm (zeros l2.tail) (by omega) l2 hT2 (by omega) rfl

/-- C14: for every non-empty list whose fields are values of `unsigned int`, the run of the
handler, a SIGALRM raised by the code itself running the handler again at once, ends (with
enough depth it returns a result); the list it leaves is empty or has a head with a delta above
0, and then the last countdown programmed is `alarm` of that delta; and `alarm(0)` is never
called. -/
theorem firing_pass_ends_with_positive_head (L : List Timer) (hne : L ≠ []) (hT : Typed L) :
    ∃ fuel L2 ev, sig_alarm_internal fuel L = some (L2, ev) ∧
      (L2 = [] ∨ ∃ hd rest, L2 = hd :: rest ∧ 0 < hd.sec ∧ lastAlarm ev = some hd.sec) ∧
      Event.alarm 0 ∉ ev := by
  obtain ⟨fuel, r, h⟩ := sig_alarm_internal_ends L.length (zeros L.tail) L hT rfl rfl
  obtain ⟨_, k2, k3, k4⟩ := sig_alarm_internal_sound fuel L r hT h
  refine ⟨fuel, r.1, r.2, h, ?_, k3⟩
  cases hr : r.1 with
  | nil => exact Or.inl rfl
  | cons hd rest =>
    rw [hr] at k2
    exact Or.inr ⟨hd, rest, rfl, k2, k4 hne hd rest hr⟩

theorem firing_pass_ends_with_positive_head_witness :
    ∃ fuel L2 ev, sig_alarm_internal fuel
        [mallocTimer 1 11 3 3, mallocTimer 2 12 0 0, mallocTimer 3 13 0 2, mallocTimer 4 14 4 0]
        = some (L2, ev) ∧
      (L2 = [] ∨ ∃ hd rest, L2 = hd :: rest ∧ 0 < hd.sec ∧ lastAlarm ev = some hd.sec) ∧
      Event.alarm 0 ∉ ev :=
  firing_pass_ends_with_positive_head
    [mallocTimer 1 11 3 3, mallocTimer 2 12 0 0, mallocTimer 3 13 0 2, mallocTimer 4 14 4 0]
    (by decide) (by unfold Typed; decide)

/-! ## Timers due in the same run -/

/-- What `popTimer` leaves in front: the records of delta 0 behind the head stay where they are,
and what follows them is empty or starts with a delta above 0. -/
theorem popTimerWith_front_zeros (hd : Timer) (zs rest : List Timer)
    (hz : ∀ z ∈ zs, z.sec = 0) (hrest : HeadPos rest) (hT : Typed (hd :: (zs ++ rest)))
    (hnd : (ids (hd :: (zs ++ rest))).Nodup) :
    ∃ rest2, (∀ k, popTimerWith k (hd :: (zs ++ rest))
        = some (some hd.sigactor, zs ++ rest2, [])) ∧
      HeadPos rest2 ∧ Typed (zs ++ rest2) ∧ (ids (zs ++ rest2)).Nodup := by
  obtain ⟨hh, htl⟩ := Typed_cons.mp hT
  have hid : hd.id ∉ ids (zs ++ rest) := (List.nodup_cons.mp hnd).1
  have hndt : (ids (zs ++ rest)).Nodup := (List.nodup_cons.mp hnd).2
  by_cases hp : hd.intersec = 0
  · exact ⟨rest, fun k => popTimerWith_oneshot k hd _ hp, hrest, htl, hndt⟩
  · have hp2 : 0 < hd.intersec := by omega
    refine ⟨insertTimer rest { hd with sec := hd.intersec } [], fun k => ?_,
      HeadPos_insertTimer rest _ hrest hp2, ?_, ?_⟩
    · rw [popTimerWith_periodic k hd _ hp2 hid, insertTimer_zeros_append zs rest _ hz hh.2]
    · obtain ⟨h1, h2⟩ := Typed_append.mp htl
      exact Typed_append.mpr ⟨h1, Typed_insertTimer rest _ h2 hh.2 hh.2⟩
    · have h1 : (ids (insertTimer rest { hd with sec := hd.intersec } [])).Perm
          (hd.id :: ids rest) := ids_insertTimer_perm rest _
      have h2 : (ids (zs ++ insertTimer rest { hd with sec := hd.intersec } [])).Perm
          (ids (hd :: (zs ++ rest))) := by
        rw [ids_append, ids_cons, ids_append]
        exact (List.Perm.append_left (ids zs) h1).trans List.perm_middle
      exact h2.nodup_iff.mpr hnd

/-- C18, counterexample: the head (id 1, period 3) is followed by exactly two records of delta
0, the second of which has the id of the head; the run of the handler calls two handlers, 12
and 11, not three: the record with handler 13 is unlinked when the head is put back and never
fires. -/
theorem nested_fire_counterexample :
    sig_alarm_internal 3 [mallocTimer 1 11 1 3, mallocTimer 2 12 0 0, mallocTimer 1 13 0 0]
      = some ([mallocTimer 1 11 3 3],
          [Event.kill, Event.alarm 3, Event.call 12, Event.call 11]) ∧
    calls [Event.kill, Event.alarm 3, Event.call 12, Event.call 11] = [12, 11] := by
  decide

/-- C18, amended: let the ids of the list be pairwise distinct (and its fields values of
`unsigned int`), and let the head `hd` be followed by exactly the records `zs` of delta 0 and
then by `rest`, which is empty or starts with a delta above 0. Then one run of the handler, a
SIGALRM raised by the code itself running the handler again at once, calls exactly the handlers
of `zs` and of `hd`, in the reverse of the list order: the last record of `zs` first, `hd`
last. -/
theorem nested_fire_in_reverse_order (hd : Timer) (zs rest : List Timer)
    (hz : ∀ z ∈ zs, z.sec = 0) (hrest : HeadPos rest) (hT : Typed (hd :: (zs ++ rest)))
    (hnd : (ids (hd :: (zs ++ rest))).Nodup) :
    ∃ L2 ev, sig_alarm_internal (zs.length + 1) (hd :: (zs ++ rest)) = some (L2, ev) ∧
      calls ev = (zs.map Timer.sigactor).reverse ++ [hd.sigactor] := by
  induction zs generalizing hd rest with
  | nil =>
    obtain ⟨rest2, hpop, hpos, _, _⟩ := popTimerWith_front_zeros hd [] rest hz hrest hT hnd
    cases rest2 with
    | nil => exact ⟨_, _, sig_alarm_internal_last 0 hd _ hd.sigactor [] (hpop _), rfl⟩
    | cons nxt r =>
      exact ⟨_, _, sig_alarm_internal_rearm 0 hd nxt _ r hd.sigactor [] (hpop _) hpos, rfl⟩
  | cons z zs ih =>
    obtain ⟨rest2, hpop, hpos, hT2, hnd2⟩ :=
      popTimerWith_front_zeros hd (z :: zs) rest hz hrest hT hnd
    have hz0 : z.sec = 0 := hz z (List.mem_cons_self _ _)
    obtain ⟨L2, ev2, hrun, hcalls⟩ := ih z rest2
      (fun y hy => hz y (List.mem_cons_of_mem _ hy)) hpos hT2 hnd2
    have hout := sig_alarm_internal_nested (zs.length + 1) hd z ((z :: zs) ++ rest)
      (zs ++ rest2) hd.sigactor [] (hpop _) hz0
    rw [hrun] at hout
    refine ⟨L2, _, hout, ?_⟩
    show calls (Event.kill :: (ev2 ++ [Event.call hd.sigactor])) = _
    simp only [calls, calls_append, hcalls, List.map_cons, List.reverse_cons, List.append_assoc]

theorem nested_fire_in_reverse_order_witness :
    ∃ L2 ev, sig_alarm_internal ([mallocTimer 2 12 0 0, mallocTimer 3 13 0 2].length + 1)
        (mallocTimer 1 11 3 3 :: ([mallocTimer 2 12 0 0, mallocTimer 3 13 0 2]
          ++ [mallocTimer 4 14 4 0])) = some (L2, ev) ∧
      calls ev = ([mallocTimer 2 12 0 0, mallocTimer 3 13 0 2].map Timer.sigactor).reverse
        ++ [(mallocTimer 1 11 3 3).sigactor] :=
  nested_fire_in_reverse_order (mallocTimer 1 11 3 3)
    [mallocTimer 2 12 0 0, mallocTimer 3 13 0 2] [mallocTimer 4 14 4 0]
    (by decide) (by show 0 < (mallocTimer 4 14 4 0).sec; decide) (by unfold Typed; decide)
    (by decide)

/-! ## The states between operations -/

theorem Alarm_of_cancel (h : List Timer) (t : Timer) (next : List Timer) (hz : t.sec = 0) :
    (Alarm h t next).list = (delTimer h t).1 ∧ (Alarm h t next).events = (delTimer h t).2 := by
  unfold Alarm
  simp [hz]

theorem findTimerPrev_head (x : Timer) (post : List Timer) (id : Int) (hx : x.id = id) :
    findTimerPrev (x :: post) id = Prev.header := by
  simp [findTimerPrev, findTimerPrevLoop, hx]

theorem HeadPos_delTimer (L : List Timer) (t : Timer) (hp : HeadPos L)
    (hw : delNoWrap L t = true) : HeadPos (delTimer L t).1 := by
  rcases delTimer_cases L t with ⟨_, hd⟩ | ⟨pre, x, post, he, _, hx, _, hd⟩ | ⟨_, _, _, _, _, hd⟩
  · rw [hd]; exact hp
  · rw [hd]
    subst he
    cases pre with
    | cons a pre => exact hp
    | nil =>
      have hxp : 0 < x.sec := hp
      cases post with
      | nil => trivial
      | cons y post =>
        have hw2 : ∀ r ∈ y :: post, r.sec + x.sec < UINT := by
          have := hw
          simp only [delNoWrap, List.nil_append, findTimerPrev_head x (y :: post) t.id hx,
            List.all_eq_true, decide_eq_true_eq] at this
          exact this
        have hy := hw2 y (List.mem_cons_self _ _)
        show 0 < uadd y.sec x.sec
        rw [uadd_exact hy]
        omega
  · rw [hd]; exact hp

theorem sig_alarm_internal_nodup (fuel : Nat) : ∀ (l : List Timer)
    (r : List Timer × List Event), (ids l).Nodup → sig_alarm_internal fuel l = some r →
    (ids r.1).Nodup := by
  induction fuel with
  | zero =>
    intro l r _ h
    simp [sig_alarm_internal] at h
  | succ f ih =>
    intro l r hnd h
    cases l with
    | nil =>
      simp only [sig_alarm_internal, Option.some.injEq] at h
      subst h
      exact hnd
    | cons hd tl =>
      have hid : hd.id ∉ ids tl := (List.nodup_cons.mp hnd).1
      have hndt : (ids tl).Nodup := (List.nodup_cons.mp hnd).2
      have hpop : ∃ l1, popTimerWith (sig_alarm_internal f) (hd :: tl)
          = some (some hd.sigactor, l1, []) ∧ (ids l1).Nodup := by
        by_cases hp : hd.intersec = 0
        · exact ⟨tl, popTimerWith_oneshot _ hd tl hp, hndt⟩
        · refine ⟨_, popTimerWith_periodic _ hd tl (by omega) hid, ?_⟩
          rw [(ids_insertTimer_perm tl _).nodup_iff]
          exact hnd
      obtain ⟨l1, hpop, hnd1⟩ := hpop
      cases l1 with
      | nil =>
        rw [sig_alarm_internal_last f hd tl hd.sigactor [] hpop] at h
        cases h
        exact hnd1
      | cons nxt rest =>
        by_cases hpos : 0 < nxt.sec
        · rw [sig_alarm_internal_rearm f hd nxt tl rest hd.sigactor [] hpop hpos] at h
          cases h
          exact hnd1
        · rw [sig_alarm_internal_nested f hd nxt tl rest hd.sigactor [] hpop
            (by omega)] at h
          cases h2 : sig_alarm_internal f (nxt :: rest) with
          | none => rw [h2] at h; cases h
          | some r2 =>
            rw [h2] at h
            cases h
            exact ih (nxt :: rest) r2 hnd1 h2

/-- What holds in every state between operations: fields in `unsigned int`, a head above 0 (or
no record), pairwise distinct ids. -/
theorem Reach_invariant (L : List Timer) (h : Reach L) :
    Typed L ∧ HeadPos L ∧ (ids L).Nodup := by
  induction h with
  | empty => exact ⟨by simp [Typed], trivial, by simp [ids]⟩
  | alarm L t _ hts hti hw ih =>
    obtain ⟨hT, hp, hnd⟩ := ih
    have hT1 := Typed_delTimer L t hT
    have hp1 := HeadPos_delTimer L t hp hw
    have hnd1 : (ids (delTimer L t).1).Nodup ∧ t.id ∉ ids (delTimer L t).1 := by
      by_cases hin : t.id ∈ ids L
      · have hhead : ∀ hd tl, L = hd :: tl → hd.id = t.id → 0 < hd.sec := by
          intro hd tl he _
          subst he
          exact hp
        have h := delTimer_present L t hnd hin hhead
        exact ⟨h.1, h.2.1⟩
      · rw [delTimer_absent L t hin]
        exact ⟨hnd, hin⟩
    by_cases hz : t.sec = 0
    · rw [(Alarm_of_cancel L t [] hz).1]
      exact ⟨hT1, hp1, hnd1.1⟩
    · rw [Alarm_list_of_arm L t [] hz]
      refine ⟨Typed_insertTimer _ t hT1 hts hti, HeadPos_insertTimer _ t hp1 (by omega), ?_⟩
      rw [(ids_insertTimer_perm _ t).nodup_iff]
      exact List.nodup_cons.mpr ⟨hnd1.2, hnd1.1⟩
  | fire L L2 fuel ev _ hrun ih =>
    obtain ⟨hT, _, hnd⟩ := ih
    obtain ⟨k1, k2, _, _⟩ := sig_alarm_internal_sound fuel L (L2, ev) hT hrun
    exact ⟨k1, k2, sig_alarm_internal_nodup fuel L (L2, ev) hnd hrun⟩

theorem popTimerWith_of_nodup (L : List Timer) (hnd : (ids L).Nodup)
    (k : List Timer → Option (List Timer × List Event)) :
    popTimerWith k L = popTimer L := by
  cases L with
  | nil => rfl
  | cons hd tl =>
    have hid : hd.id ∉ ids tl := (List.nodup_cons.mp hnd).1
    by_cases hp : hd.intersec = 0
    · rw [popTimerWith_oneshot k hd tl hp, popTimer, popTimerWith_oneshot _ hd tl hp]
    · rw [popTimerWith_periodic k hd tl (by omega) hid, popTimer,
        popTimerWith_periodic _ hd tl (by omega) hid]

/-- The states between operations when every record handed to `Alarm` has `NULL` in its `next`
field. In every state reached from the empty list by such calls of `Alarm` (with a delay above
0 or with delay 0, the fields of the timer being values of `unsigned int`) and by completed runs
of the handler, no addition of `delTimer` wrapping, the list is empty or its head has a delta
above 0, and the ids are pairwise distinct. So in such a state `delTimer` never takes its branch
for a head of delta 0 (it raises nothing, whatever the timer), `Alarm` never calls `kill`, and
`popTimer` never runs the handler from inside `delTimer`. -/
theorem Reach_head_positive (L : List Timer) (h : Reach L) :
    HeadPos L ∧ (ids L).Nodup ∧ (∀ t, (delTimer L t).2 = []) ∧
    (∀ t next, Event.kill ∉ (Alarm L t next).events) ∧
    (∀ k, popTimerWith k L = popTimer L) := by
  obtain ⟨_, hp, hnd⟩ := Reach_invariant L h
  refine ⟨hp, hnd, fun t => delTimer_quiet_of_HeadPos L t hp, ?_,
    fun k => popTimerWith_of_nodup L hnd k⟩
  intro t next
  by_cases hz : t.sec = 0
  · rw [(Alarm_of_cancel L t next hz).2, delTimer_quiet_of_HeadPos L t hp]
    simp
  · have hhead : ∀ hd tl, L = hd :: tl → hd.id = t.id → 0 < hd.sec := by
      intro hd tl he _
      subst he
      exact hp
    obtain ⟨hd, rest, _, h1 | h1⟩ := Alarm_arm_head_cases L t next
      (count_le_one_of_nodup _ _ hnd) (by omega) hhead
    · rw [h1.2]; simp
    · rw [h1.2]; simp

/-! ## A record that is linked again

`appendTimer` writes `t->next` in its two branches for a list that holds a record, and not in its
branch for an empty list; `mallocTimer` does not write the field, and neither `delTimer` nor
`popTimer` clears it when a record leaves the list. A record that was in the list before, handed
to `Alarm` again when the list is empty, brings along the records it was left pointing at. -/

/-- C2, the code on the record `a` (id 1) that still points at `b` (id 2), for the empty list.
The calls that lead there: `a` is armed for 5 and `b` for 7, which gives `a`, `b` with the
deltas 5 and 2; id 1 is cancelled, which leaves `b` with delta 7 and `a->next` as it was; id 2
is cancelled, which leaves the empty list. Then `appendTimer` with `a` (`sec = 5`) stores `a`
and leaves `a->next` as it is: the list is `a`, `b`, two records, and not the empty list with
`a` put in, which is `a` alone. -/
theorem appendTimer_keeps_stale_next :
    (Alarm [] (mallocTimer 1 11 5 0) []).list = [mallocTimer 1 11 5 0] ∧
    (Alarm [mallocTimer 1 11 5 0] (mallocTimer 2 12 7 0) []).list
      = [mallocTimer 1 11 5 0, mallocTimer 2 12 2 0] ∧
    (Alarm [mallocTimer 1 11 5 0, mallocTimer 2 12 2 0] (mallocTimer 1 0 0 0) []).list
      = [mallocTimer 2 12 7 0] ∧
    (Alarm [mallocTimer 2 12 7 0] (mallocTimer 2 0 0 0) []).list = [] ∧
    (1 : Int) ∉ ids ([] : List Timer) ∧
    appendTimer [] (mallocTimer 1 11 5 0) [mallocTimer 2 12 7 0]
      = ([mallocTimer 1 11 5 0, mallocTimer 2 12 7 0], []) ∧
    dueTimes (appendTimer [] (mallocTimer 1 11 5 0) [mallocTimer 2 12 7 0]).1
      = [mallocTimer 1 11 5 0, mallocTimer 2 12 12 0] ∧
    (dueTimes ([] : List Timer)).takeWhile (fun r => decide (r.sec ≤ 5))
        ++ mallocTimer 1 11 5 0 :: (dueTimes ([] : List Timer)).dropWhile
          (fun r => decide (r.sec ≤ 5))
      = [mallocTimer 1 11 5 0] := by
  decide

/-- Arming onto the empty list when the first record handed in has `NULL` in its `next` field:
for timers with pairwise distinct ids and delays above 0 and below `2^32`, the list that
results, read as due times (running sums of `sec`), holds exactly the armed timers, each due at
its own delay, in non-decreasing order of delay. -/
theorem armAll_sorted_by_delay (ps : List (Timer × List Timer))
    (hnd : (ids (ps.map Prod.fst)).Nodup)
    (hb : ∀ t ∈ ps.map Prod.fst, 0 < t.sec ∧ t.sec < UINT)
    (hnext : ∀ p, ps.head? = some p → p.2 = []) :
    (dueTimes (armAll [] ps)).Perm (ps.map Prod.fst) ∧
    (dueTimes (armAll [] ps)).Pairwise (fun a b => a.sec ≤ b.sec) := by
  refine ⟨?_, dueFrom_sorted 0 _⟩
  have := armAll_perm ps [] [] (by simp [dueTimes, dueFrom]) (by simpa using hnd)
    (by simpa using hb) (Or.inr hnext)
  simpa using this

/-- C6, the code on three timers with the delays 4, 3, 2 (ids 1, 3, 4) armed one after another
onto the empty list, the record `x` of the first being one that still points at `y` (id 2). The
calls that lead there: `x` is armed for 4 and `y` for 9, id 1 is cancelled (which leaves `y` with
delta 9 and `x->next` as it was) and id 2 is cancelled, which leaves the empty list. Arming the
three timers then gives four records with the deltas 2, 1, 1, 9, the last being `y`, which was
not armed: the list does not enumerate the timers armed. With `NULL` in `x->next` the same
calls give the deltas 2, 1, 1 of the comment before `appendTimer`. -/
theorem armAll_keeps_stale_next :
    (Alarm [] (mallocTimer 1 11 4 0) []).list = [mallocTimer 1 11 4 0] ∧
    (Alarm [mallocTimer 1 11 4 0] (mallocTimer 2 12 9 0) []).list
      = [mallocTimer 1 11 4 0, mallocTimer 2 12 5 0] ∧
    (Alarm [mallocTimer 1 11 4 0, mallocTimer 2 12 5 0] (mallocTimer 1 0 0 0) []).list
      = [mallocTimer 2 12 9 0] ∧
    (Alarm [mallocTimer 2 12 9 0] (mallocTimer 2 0 0 0) []).list = [] ∧
    (ids [mallocTimer 1 11 4 0, mallocTimer 3 13 3 0, mallocTimer 4 14 2 0]).Nodup ∧
    armAll [] [(mallocTimer 1 11 4 0, [mallocTimer 2 12 9 0]), (mallocTimer 3 13 3 0, []),
        (mallocTimer 4 14 2 0, [])]
      = [mallocTimer 4 14 2 0, mallocTimer 3 13 1 0, mallocTimer 1 11 1 0, mallocTimer 2 12 9 0] ∧
    (armAll [] [(mallocTimer 1 11 4 0, [mallocTimer 2 12 9 0]), (mallocTimer 3 13 3 0, []),
        (mallocTimer 4 14 2 0, [])]).length ≠ 3 ∧
    (armAll [] (fresh [mallocTimer 1 11 4 0, mallocTimer 3 13 3 0, mallocTimer 4 14 2 0])).map
        Timer.sec = [2, 1, 1] := by
  decide

/-- C19, the code on a sequence of calls from the empty list in which the record `a` (id 1,
period 5) is handed to `Alarm` a second time; no addition wraps. `a` is armed for 5 and `b`
(id 2) for 9; id 1 and id 2 are cancelled, which leaves the empty list and `a->next` pointing at
`b`. Then `h` (id 3), `b` and `c` (id 1, handler 14) are armed for 5 each, which gives `h`, `b`,
`c` with the deltas 5, 0, 0 and `b->next` pointing at `c`; one run of the handler pops all three
and leaves the empty list. Arming `a` for 5 again stores it in front of what `a->next` leads to:
the list is `a`, `b`, `c` with the ids 1, 2, 1, which are not pairwise distinct. Cancelling id 2
leaves `a`, `c`. In the next run of the handler `popTimer` calls `appendTimer` with `a`, whose
`delTimer` finds `c` at the head with the id of `a` and delta 0: it takes the branch for a head
of delta 0 and raises SIGALRM without removing anything. -/
theorem reused_record_reaches_kill_branch :
    (Alarm [] (mallocTimer 1 11 5 5) []).list = [mallocTimer 1 11 5 5] ∧
    (Alarm [mallocTimer 1 11 5 5] (mallocTimer 2 12 9 0) []).list
      = [mallocTimer 1 11 5 5, mallocTimer 2 12 4 0] ∧
    (Alarm [mallocTimer 1 11 5 5, mallocTimer 2 12 4 0] (mallocTimer 1 0 0 0) []).list
      = [mallocTimer 2 12 9 0] ∧
    (Alarm [mallocTimer 2 12 9 0] (mallocTimer 2 0 0 0) []).list = [] ∧
    (Alarm [] (mallocTimer 3 13 5 0) []).list = [mallocTimer 3 13 5 0] ∧
    (Alarm [mallocTimer 3 13 5 0] (mallocTimer 2 12 5 0) []).list
      = [mallocTimer 3 13 5 0, mallocTimer 2 12 0 0] ∧
    (Alarm [mallocTimer 3 13 5 0, mallocTimer 2 12 0 0] (mallocTimer 1 14 5 0) []).list
      = [mallocTimer 3 13 5 0, mallocTimer 2 12 0 0, mallocTimer 1 14 0 0] ∧
    sig_alarm_internal 3 [mallocTimer 3 13 5 0, mallocTimer 2 12 0 0, mallocTimer 1 14 0 0]
      = some ([], [Event.kill, Event.kill, Event.call 14, Event.call 12, Event.call 13]) ∧
    Alarm [] (mallocTimer 1 11 5 5) [mallocTimer 2 12 0 0, mallocTimer 1 14 0 0]
      = ⟨[mallocTimer 1 11 5 5, mallocTimer 2 12 0 0, mallocTimer 1 14 0 0],
          [Event.alarm 5], 0⟩ ∧
    ¬ (ids [mallocTimer 1 11 5 5, mallocTimer 2 12 0 0, mallocTimer 1 14 0 0]).Nodup ∧
    (Alarm [mallocTimer 1 11 5 5, mallocTimer 2 12 0 0, mallocTimer 1 14 0 0]
        (mallocTimer 2 0 0 0) []).list
      = [mallocTimer 1 11 5 5, mallocTimer 1 14 0 0] ∧
    delTimer [mallocTimer 1 14 0 0] (mallocTimer 1 11 5 5)
      = ([mallocTimer 1 14 0 0], [Event.kill]) ∧
    sig_alarm_internal 2 [mallocTimer 1 11 5 5, mallocTimer 1 14 0 0]
      = some ([mallocTimer 1 11 5 5, mallocTimer 1 14 0 0],
          [Event.kill, Event.call 14, Event.alarm 5, Event.call 11]) ∧
    popTimerWith (sig_alarm_internal 1) [mallocTimer 1 11 5 5, mallocTimer 1 14 0 0]
      ≠ popTimer [mallocTimer 1 11 5 5, mallocTimer 1 14 0 0] := by
  decide

/-! ## Arming and the countdown -/

theorem insFrom_split (t : Timer) (b : Nat) (l : List Timer) :
    ∃ mid s post, insFrom t b l = mid ++ { t with sec := s } :: post ∧
      ids (mid ++ post) = ids l := by
  induction l generalizing b with
  | nil => exact ⟨[], _, [], rfl, rfl⟩
  | cons x rest ih =>
    unfold insFrom
    split
    · exact ⟨[], _, _, rfl, by simp [ids]⟩
    · obtain ⟨mid, s, post, he, hi⟩ := ih (uadd b x.sec)
      refine ⟨x :: mid, s, post, by simp [he], ?_⟩
      simp only [List.cons_append, ids_cons, hi]

theorem insertTimer_split (l : List Timer) (t : Timer) :
    ∃ mid s post, insertTimer l t [] = mid ++ { t with sec := s } :: post ∧
      ids (mid ++ post) = ids l := by
  cases l with
  | nil => exact ⟨[], t.sec, [], rfl, rfl⟩
  | cons x rest =>
    rw [insertTimer_cons]
    split
    · exact ⟨[], t.sec, _, rfl, by simp [ids]⟩
    · obtain ⟨mid, s, post, he, hi⟩ := insFrom_split t (uadd 0 x.sec) rest
      refine ⟨x :: mid, s, post, by simp [he], ?_⟩
      simp only [List.cons_append, ids_cons, hi]

/-- The one record with the id of `t` in the list left by an insertion into a list without that
id: it has the handler and the period of `t`. -/
theorem insertTimer_filter (l : List Timer) (t : Timer) (hid : t.id ∉ ids l) :
    ∃ s, (insertTimer l t []).filter (fun r => decide (r.id = t.id)) = [{ t with sec := s }] := by
  obtain ⟨mid, s, post, he, hi⟩ := insertTimer_split l t
  refine ⟨s, ?_⟩
  rw [← hi, ids_append, List.mem_append, not_or] at hid
  have h1 : mid.filter (fun r => decide (r.id = t.id)) = [] := by
    rw [List.filter_eq_nil_iff]
    intro r hr
    have : r.id ≠ t.id := fun e => hid.1 (e ▸ List.mem_map_of_mem Timer.id hr)
    simpa using this
  have h2 : post.filter (fun r => decide (r.id = t.id)) = [] := by
    rw [List.filter_eq_nil_iff]
    intro r hr
    have : r.id ≠ t.id := fun e => hid.2 (e ▸ List.mem_map_of_mem Timer.id hr)
    simpa using this
  rw [he, List.filter_append, h1, List.filter_cons, h2]
  simp

/-- C3, counterexample. First list: one record of id 1 with delta 0 (and period 3); arming id 1
with delay 5 leaves the old record in the list, the new one behind it: two records of id 1,
and the list has grown although the id was present. Second list: deltas 1 and `2^32 - 1`;
arming id 3 with delay 5 puts the new record at the end with delta 5, so that the sum of the
deltas through it is `2^32 + 5` and not 5. Third list: one record `c` of id 1; the record `a`
of id 1 handed in was in the list before and still points at `b` (id 2, left with delta 7: `a`
was armed for 5, `b` for 7, and both ids were cancelled). The removal step leaves the empty
list, `a` is stored with `a->next` as it is, and the list has two records although the id was
present. -/
theorem Alarm_arm_counterexample :
    ((ids [mallocTimer 1 11 0 3]).Nodup ∧ 0 < (mallocTimer 1 12 5 0).sec ∧
      (Alarm [mallocTimer 1 11 0 3] (mallocTimer 1 12 5 0) []).list
        = [mallocTimer 1 11 0 3, mallocTimer 1 12 5 0] ∧
      ¬ (ids (Alarm [mallocTimer 1 11 0 3] (mallocTimer 1 12 5 0) []).list).Nodup ∧
      (1 : Int) ∈ ids [mallocTimer 1 11 0 3] ∧
      (Alarm [mallocTimer 1 11 0 3] (mallocTimer 1 12 5 0) []).list.length
        ≠ [mallocTimer 1 11 0 3].length) ∧
    ((ids [mallocTimer 1 11 1 0, mallocTimer 2 12 4294967295 0]).Nodup ∧
      0 < (mallocTimer 3 13 5 0).sec ∧
      (dueTimes (Alarm [mallocTimer 1 11 1 0, mallocTimer 2 12 4294967295 0]
          (mallocTimer 3 13 5 0) []).list).filter (fun r => decide (r.id = 3))
        = [mallocTimer 3 13 4294967301 0]) ∧
    ((Alarm [mallocTimer 1 11 5 0, mallocTimer 2 12 2 0] (mallocTimer 1 0 0 0) []).list
        = [mallocTimer 2 12 7 0] ∧
      (Alarm [mallocTimer 2 12 7 0] (mallocTimer 2 0 0 0) []).list = [] ∧
      (ids [mallocTimer 1 14 3 0]).Nodup ∧ 0 < (mallocTimer 1 11 5 0).sec ∧
      (delTimer [mallocTimer 1 14 3 0] (mallocTimer 1 11 5 0)).1 = [] ∧
      (Alarm [mallocTimer 1 14 3 0] (mallocTimer 1 11 5 0) [mallocTimer 2 12 7 0]).list
        = [mallocTimer 1 11 5 0, mallocTimer 2 12 7 0] ∧
      (1 : Int) ∈ ids [mallocTimer 1 14 3 0] ∧
      (Alarm [mallocTimer 1 14 3 0] (mallocTimer 1 11 5 0) [mallocTimer 2 12 7 0]).list.length
        ≠ [mallocTimer 1 14 3 0].length) := by
  decide

/-- C3, amended: let the ids of `L` be pairwise distinct, `t.sec > 0`, let the head of `L` have
a delta above 0 if it carries the id of `t`, and let `t->next` be `NULL` if the removal step
leaves the empty list. Then the list left by `Alarm` has pairwise distinct ids and holds exactly
one record with the id of `t`, which has the handler and the period of `t`; its length is that
of `L` when the id was in `L`, and one more otherwise. When moreover `t.sec < 2^32` and the
deltas left by the removal step sum to less than `2^32`, that record is due at `t.sec`: read as
due times, the one record of the list with the id of `t` is `t` itself. -/
theorem Alarm_arm_replaces (L : List Timer) (t : Timer) (next : List Timer)
    (hnd : (ids L).Nodup) (hpos : 0 < t.sec)
    (hhead : ∀ hd tl, L = hd :: tl → hd.id = t.id → 0 < hd.sec)
    (hnext : (delTimer L t).1 ≠ [] ∨ next = []) :
    (ids (Alarm L t next).list).Nodup ∧
    (∃ s, (Alarm L t next).list.filter (fun r => decide (r.id = t.id))
      = [{ t with sec := s }]) ∧
    (t.id ∈ ids L → (Alarm L t next).list.length = L.length) ∧
    (t.id ∉ ids L → (Alarm L t next).list.length = L.length + 1) ∧
    (t.sec < UINT → sumSec (delTimer L t).1 < UINT →
      (dueTimes (Alarm L t next).list).filter (fun r => decide (r.id = t.id)) = [t]) := by
  rw [Alarm_list_of_arm L t next (by omega), insertTimer_of_link _ t next hnext]
  have hdel : (ids (delTimer L t).1).Nodup ∧ t.id ∉ ids (delTimer L t).1 ∧
      (t.id ∈ ids L → (delTimer L t).1.length + 1 = L.length) ∧
      (t.id ∉ ids L → (delTimer L t).1.length = L.length) := by
    by_cases hin : t.id ∈ ids L
    · obtain ⟨h1, h2, h3, _⟩ := delTimer_present L t hnd hin hhead
      exact ⟨h1, h2, fun _ => h3, fun hn => absurd hin hn⟩
    · rw [delTimer_absent L t hin]
      exact ⟨hnd, hin, fun hn => absurd hn hin, fun _ => rfl⟩
  obtain ⟨h1, h2, h3, h4⟩ := hdel
  refine ⟨?_, insertTimer_filter _ t h2, ?_, ?_, ?_⟩
  · rw [(ids_insertTimer_perm _ t).nodup_iff]
    exact List.nodup_cons.mpr ⟨h2, h1⟩
  · intro hin
    rw [length_insertTimer]
    exact h3 hin
  · intro hin
    rw [length_insertTimer, h4 hin]
  · intro ht hsum
    exact (insertTimer_fresh (delTimer L t).1 t h1 h2 hsum ht).2.1

theorem Alarm_arm_replaces_witness :
    (ids (Alarm [mallocTimer 2 12 2 0, mallocTimer 1 11 3 0, mallocTimer 3 13 3 0]
      (mallocTimer 1 14 6 1) [mallocTimer 9 19 1 0]).list).Nodup ∧
    (Alarm [mallocTimer 2 12 2 0, mallocTimer 1 11 3 0, mallocTimer 3 13 3 0]
        (mallocTimer 1 14 6 1) [mallocTimer 9 19 1 0]).list.length
      = [mallocTimer 2 12 2 0, mallocTimer 1 11 3 0, mallocTimer 3 13 3 0].length ∧
    (dueTimes (Alarm [mallocTimer 2 12 2 0, mallocTimer 1 11 3 0, mallocTimer 3 13 3 0]
      (mallocTimer 1 14 6 1) [mallocTimer 9 19 1 0]).list).filter
        (fun r => decide (r.id = (mallocTimer 1 14 6 1).id)) = [mallocTimer 1 14 6 1] :=
  have h := Alarm_arm_replaces [mallocTimer 2 12 2 0, mallocTimer 1 11 3 0, mallocTimer 3 13 3 0]
    (mallocTimer 1 14 6 1) [mallocTimer 9 19 1 0] (by decide) (by decide)
    (by intro hd tl h; cases h; decide) (Or.inl (by decide))
  ⟨h.1, h.2.2.1 (by decide), h.2.2.2.2 (by decide) (by decide)⟩

/-! ## Two timers armed with the same delay -/

end SoftTimer
